import Mathlib

/-!
# A shallow embedding of the HelixDB storage engine, traversal evaluator and router

This file models, in Lean, the parts of the HelixDB repository that the
verified claims are about:

* the key codec and the storage engine built on RocksDB column families
  (`src/helix-engine/src/storage_core/storage_core.rs`),
* the traversal builder steps (`src/helix-engine/src/graph_core/traversal.rs`),
* the HTTP router dispatch (`src/helix-gateway/src/router/router.rs`),
* the `Value` property type and its bincode serialization
  (`src/protocol/src/lib.rs`).

Modelling conventions:

* RocksDB keys are ASCII byte strings; they are modelled as `List Char`.
  A column family is an association list from keys to stored values; a
  `put` replaces any entry with the same key, a `delete` removes all
  entries with the key, and an iterator seeked to a key `p` that stops at
  the first key not starting with `p` is modelled as filtering the family
  by the `starts_with` test (in the sorted key space of RocksDB the keys
  sharing a prefix are exactly the contiguous run the loop visits).
* Stored record bytes are modelled by the inductive `StoredVal`: the
  bincode-serialized node or edge, or the empty value `vec![]` used for
  index entries.  Bincode serialization itself is modelled byte-exactly,
  but separately (`serializeValue` below), for the `Value` type.
* Fallible Rust code returns `Out α`: `ok`, `err` for a returned
  `Err(GraphError::...)`, and `panic` for an `unwrap()` on `None`/`Err`
  or an out-of-bounds index.
* `Uuid::new_v4()` produces a fresh id unknown to the caller; the model
  takes the generated id as an explicit argument, and reachable-store
  reasoning supplies the freshness facts that v4 UUIDs give (fresh, and
  containing no `':'` byte).
-/

namespace Helix

/-- A RocksDB key: a byte string, modelled as a list of (ASCII) characters. -/
abbrev Key := List Char

/-- The `Value` enum of `protocol/src/lib.rs`, the property value type.
`String` payloads are modelled as their UTF-8 byte sequences, `Float` by
the 64-bit IEEE-754 bit pattern, `Integer` (an `i32`) by its 32-bit bit
pattern. -/
inductive RValue where
  | str (bytes : List Nat)
  | float (bits : Nat)
  | int (bits : Nat)
  | bool (b : Bool)
  | arr (vs : List RValue)
  | null

/-- A property map `HashMap<String, Value>`; the claims never inspect
properties, an association list suffices. -/
abbrev Props := List (String × RValue)

/-- The `Node` struct of `protocol/src/lib.rs`. -/
structure RNode where
  id : String
  label : String
  properties : Props

/-- The `Edge` struct of `protocol/src/lib.rs`. -/
structure REdge where
  id : String
  label : String
  from_node : String
  to_node : String
  properties : Props

/-- The bytes stored under a key: a bincode-serialized `Node` or `Edge`
record, or the empty `vec![]` used for the index entries. -/
inductive StoredVal where
  | nodeRec (n : RNode)
  | edgeRec (e : REdge)
  | emptyVal

/-- A column family: an association list of keys and stored byte strings. -/
abbrev CF := List (Key × StoredVal)

/-- Point lookup (`db.get_cf` / `db.get_pinned_cf`). -/
def cfGet : CF → Key → Option StoredVal
  | [], _ => none
  | (k', v) :: rest, k => if k' = k then some v else cfGet rest k

/-- `WriteBatch::put_cf`: insert, replacing any entry with the same key. -/
def cfPut (cf : CF) (k : Key) (v : StoredVal) : CF :=
  (k, v) :: cf.filter (fun kv => decide (kv.1 ≠ k))

/-- `WriteBatch::delete_cf`: remove the entry with the key. -/
def cfDel (cf : CF) (k : Key) : CF :=
  cf.filter (fun kv => decide (kv.1 ≠ k))

/-- The prefix iteration pattern of `storage_core.rs`: seek to `p` and
collect entries while `key.starts_with(&p)` holds. -/
def cfScan (cf : CF) (p : Key) : CF :=
  cf.filter (fun kv => p.isPrefixOf kv.1)

/-- The database behind `HelixGraphStorage`: the three column families
`CF_NODES`, `CF_EDGES` and `CF_INDICES` opened by `new`. -/
structure Store where
  nodes : CF
  edges : CF
  indices : CF

/-- The empty freshly-opened database. -/
def Store.empty : Store := ⟨[], [], []⟩

/-- `HelixGraphStorage::node_key`: `"n:" ∥ id`. -/
def node_key (id : String) : Key := 'n' :: ':' :: id.data

/-- `HelixGraphStorage::edge_key`: `"e:" ∥ id`. -/
def edge_key (id : String) : Key := 'e' :: ':' :: id.data

/-- `HelixGraphStorage::node_label_key`: `"nl:" ∥ label ∥ ":" ∥ id`. -/
def node_label_key (label id : String) : Key :=
  'n' :: 'l' :: ':' :: (label.data ++ ':' :: id.data)

/-- `HelixGraphStorage::edge_label_key`: `"el:" ∥ label ∥ ":" ∥ id`. -/
def edge_label_key (label id : String) : Key :=
  'e' :: 'l' :: ':' :: (label.data ++ ':' :: id.data)

/-- `HelixGraphStorage::out_edge_key`: `"o:" ∥ source ∥ ":" ∥ edge_id`. -/
def out_edge_key (source_node_id edge_id : String) : Key :=
  'o' :: ':' :: (source_node_id.data ++ ':' :: edge_id.data)

/-- `HelixGraphStorage::in_edge_key`: `"i:" ∥ sink ∥ ":" ∥ edge_id`. -/
def in_edge_key (sink_node_id edge_id : String) : Key :=
  'i' :: ':' :: (sink_node_id.data ++ ':' :: edge_id.data)

/-- Outcome of a fallible Rust computation: `Ok`, a returned
`Err(GraphError)` carrying its message, or a panic (a failed `unwrap()`
or out-of-bounds index). -/
inductive Out (α : Type) where
  | ok (a : α)
  | err (msg : String)
  | panic
deriving DecidableEq

/-- `StorageMethods::get_node`: point lookup in `CF_NODES`, then
`deserialize(&data).unwrap()`.  A missing key is the typed
`GraphError::New("Item not found!")`; bytes that do not decode as a node
record panic at the `unwrap`. -/
def get_node (s : Store) (id : String) : Out RNode :=
  match cfGet s.nodes (node_key id) with
  | some (StoredVal.nodeRec n) => Out.ok n
  | some _ => Out.panic
  | none => Out.err "Item not found!"

/-- `StorageMethods::get_edge`: point lookup in `CF_EDGES`. -/
def get_edge (s : Store) (id : String) : Out REdge :=
  match cfGet s.edges (edge_key id) with
  | some (StoredVal.edgeRec e) => Out.ok e
  | some _ => Out.panic
  | none => Out.err "Item not found!"

/-- `StorageMethods::get_temp_node`: same lookup as `get_node` through a
pinned (zero-copy) read; the observable behaviour is identical. -/
def get_temp_node (s : Store) (id : String) : Out RNode := get_node s id

/-- `StorageMethods::get_temp_edge`: pinned variant of `get_edge`. -/
def get_temp_edge (s : Store) (id : String) : Out REdge := get_edge s id

/-- The shared loop body of `get_out_edges` and `get_in_edges` (the two
functions in `storage_core.rs` repeat it verbatim): for each scanned
key, strip the prefix to recover the edge id, fetch the record with
`get_edge(..).unwrap()` (panicking if the fetch fails), and keep the
edges whose label equals `edge_label`. -/
def collectEdges (s : Store) (p : Key) (edge_label : String) : CF → Out (List REdge)
  | [] => Out.ok []
  | (k, _) :: rest =>
    match get_edge s (String.mk (k.drop p.length)) with
    | Out.ok e =>
      match collectEdges s p edge_label rest with
      | Out.ok es => Out.ok (if e.label = edge_label then e :: es else es)
      | o => o
    | _ => Out.panic

/-- `StorageMethods::get_out_edges`: scan `CF_EDGES` from
`out_edge_key(node_id, "")` and collect label-matching out-edges. -/
def get_out_edges (s : Store) (node_id edge_label : String) : Out (List REdge) :=
  collectEdges s (out_edge_key node_id "") edge_label
    (cfScan s.edges (out_edge_key node_id ""))

/-- `StorageMethods::get_in_edges`: scan `CF_EDGES` from
`in_edge_key(node_id, "")` and collect label-matching in-edges. -/
def get_in_edges (s : Store) (node_id edge_label : String) : Out (List REdge) :=
  collectEdges s (in_edge_key node_id "") edge_label
    (cfScan s.edges (in_edge_key node_id ""))

/-- The shared loop body of `get_out_nodes` / `get_in_nodes`: fetch each
scanned edge with `get_temp_edge(..)?` (a typed error propagates), and
for label matches resolve the far endpoint with
`if let Ok(node) = get_node(..)`, silently skipping a missing endpoint.
`far` selects the endpoint field (`to_node` for out, `from_node` for in). -/
def collectNodes (s : Store) (p : Key) (edge_label : String)
    (far : REdge → String) : CF → Out (List RNode)
  | [] => Out.ok []
  | (k, _) :: rest =>
    match get_temp_edge s (String.mk (k.drop p.length)) with
    | Out.ok e =>
      match collectNodes s p edge_label far rest with
      | Out.ok ns =>
        if e.label = edge_label then
          match get_node s (far e) with
          | Out.ok n => Out.ok (n :: ns)
          | Out.err _ => Out.ok ns
          | Out.panic => Out.panic
        else Out.ok ns
      | o => o
    | Out.err m => Out.err m
    | Out.panic => Out.panic

/-- `StorageMethods::get_out_nodes`: resolve the `to_node` endpoint of
each label-matching out-edge. -/
def get_out_nodes (s : Store) (node_id edge_label : String) : Out (List RNode) :=
  collectNodes s (out_edge_key node_id "") edge_label REdge.to_node
    (cfScan s.edges (out_edge_key node_id ""))

/-- `StorageMethods::get_in_nodes`: resolve the `from_node` endpoint of
each label-matching in-edge. -/
def get_in_nodes (s : Store) (node_id edge_label : String) : Out (List RNode) :=
  collectNodes s (in_edge_key node_id "") edge_label REdge.from_node
    (cfScan s.edges (in_edge_key node_id ""))

/-- `StorageMethods::create_node`: build the node with the generated
UUID (here `id`), then write, in one batch to `CF_NODES`, the record at
`node_key` and the label index entry at `node_label_key`. -/
def create_node (s : Store) (id label : String) (properties : Props) :
    RNode × Store :=
  let node : RNode := ⟨id, label, properties⟩
  (node,
   { s with nodes := cfPut (cfPut s.nodes (node_key id) (StoredVal.nodeRec node))
                           (node_label_key label id) StoredVal.emptyVal })

/-- `StorageMethods::create_edge`: check both endpoints with
`get_node(..).is_ok()` (short-circuiting `||`), and on success write, in
one batch to `CF_EDGES`, the edge record, the edge label entry, the
outgoing adjacency entry and the incoming adjacency entry.  The result
pairs the outcome with the post-state (the error path writes nothing). -/
def create_edge (s : Store) (id label from_node to_node : String)
    (properties : Props) : Out REdge × Store :=
  match get_node s from_node with
  | Out.panic => (Out.panic, s)
  | Out.err _ => (Out.err "One or both nodes do not exist", s)
  | Out.ok _ =>
    match get_node s to_node with
    | Out.panic => (Out.panic, s)
    | Out.err _ => (Out.err "One or both nodes do not exist", s)
    | Out.ok _ =>
      let edge : REdge := ⟨id, label, from_node, to_node, properties⟩
      let b1 := cfPut s.edges (edge_key id) (StoredVal.edgeRec edge)
      let b2 := cfPut b1 (edge_label_key label id) StoredVal.emptyVal
      let b3 := cfPut b2 (out_edge_key from_node id) StoredVal.emptyVal
      let b4 := cfPut b3 (in_edge_key to_node id) StoredVal.emptyVal
      (Out.ok edge, { s with edges := b4 })

/-- `StorageMethods::drop_edge`: `get_pinned_cf(cf_edges, edge_key)?
.unwrap()` — a missing record panics; then `deserialize(..).unwrap()`,
and one batch deleting the outgoing adjacency entry, the incoming
adjacency entry and the edge record.  The edge label entry is not
deleted. -/
def drop_edge (s : Store) (edge_id : String) : Out Store :=
  match cfGet s.edges (edge_key edge_id) with
  | none => Out.panic
  | some (StoredVal.edgeRec e) =>
    let b1 := cfDel s.edges (out_edge_key e.from_node edge_id)
    let b2 := cfDel b1 (in_edge_key e.to_node edge_id)
    let b3 := cfDel b2 (edge_key edge_id)
    Out.ok { s with edges := b3 }
  | some _ => Out.panic

/-- The two deletion loops of `drop_node`: for each scanned entry, strip
the prefix and `drop_edge(&edge_id)?`. -/
def dropScanned (p : Key) : Store → CF → Out Store
  | s, [] => Out.ok s
  | s, (k, _) :: rest =>
    match drop_edge s (String.mk (k.drop p.length)) with
    | Out.ok s' => dropScanned p s' rest
    | Out.err m => Out.err m
    | Out.panic => Out.panic

/-- `StorageMethods::drop_node`.  Faithful to the source: the outgoing
scan iterates `cf_nodes` (the NODES column family) from
`out_edge_key(id, "")`, the incoming scan iterates `cf_edges` from
`in_edge_key(id, "")`, each found edge is dropped with `drop_edge`, and
finally the node record is deleted from `CF_NODES`. -/
def drop_node (s : Store) (id : String) : Out Store :=
  match dropScanned (out_edge_key id "") s
          (cfScan s.nodes (out_edge_key id "")) with
  | Out.ok s1 =>
    match dropScanned (in_edge_key id "") s1
            (cfScan s1.edges (in_edge_key id "")) with
    | Out.ok s2 => Out.ok { s2 with nodes := cfDel s2.nodes (node_key id) }
    | o => o
  | o => o

/-! ## Traversal evaluator (`graph_core/traversal.rs`) -/

/-- The `TraversalValue` enum: one frontier cell. -/
inductive TraversalValue where
  | SingleNode (n : RNode)
  | SingleEdge (e : REdge)
  | SingleValue (v : RValue)
  | NodeArray (ns : List RNode)
  | EdgeArray (es : List REdge)
  | ValueArray (vs : List RValue)

/-- The `TraversalBuilder` struct: named intermediate results (the
Rust field `variables`) and the current frontier (a sequence of
cells). -/
structure TraversalBuilder where
  vars : List (String × TraversalValue)
  current_step : List TraversalValue

/-- `TraversalBuilder::check_is_valid_node_traversal`: inspects
`current_step[0]` only (an empty frontier panics on the index), and
accepts exactly `NodeArray` and `SingleNode` cells. -/
def check_is_valid_node_traversal (b : TraversalBuilder) : Out Unit :=
  match b.current_step with
  | [] => Out.panic
  | c :: _ =>
    match c with
    | TraversalValue.NodeArray _ => Out.ok ()
    | TraversalValue.SingleNode _ => Out.ok ()
    | _ => Out.err "invalid node traversal"

/-- The per-node expansion loop shared by the four chained steps: each
storage call is followed by `.unwrap()`, so a typed storage error
panics.  `mk` wraps one source node's results in a frontier cell. -/
def expandCells {α : Type} (step : RNode → Out (List α))
    (mk : List α → TraversalValue) : List RNode → Out (List TraversalValue)
  | [] => Out.ok []
  | n :: rest =>
    match step n with
    | Out.ok xs =>
      match expandCells step mk rest with
      | Out.ok cells => Out.ok (mk xs :: cells)
      | o => o
    | _ => Out.panic

/-- The common shape of `out`, `out_e`, `in_`, `in_e`: run the node
kind guard with `.unwrap()` (a guard error panics), then, only when
`current_step[0]` is a `NodeArray`, replace the whole frontier by the
expansion of that first cell; any other first cell (e.g. `SingleNode`)
leaves the builder unchanged. -/
def chainedStep {α : Type} (step : RNode → Out (List α))
    (mk : List α → TraversalValue) (b : TraversalBuilder) :
    Out TraversalBuilder :=
  match check_is_valid_node_traversal b with
  | Out.ok _ =>
    match b.current_step with
    | TraversalValue.NodeArray nodes :: _ =>
      match expandCells step mk nodes with
      | Out.ok cells => Out.ok { b with current_step := cells }
      | _ => Out.panic
    | _ => Out.ok b
  | Out.err _ => Out.panic
  | Out.panic => Out.panic

/-- `TraversalSteps::out` for `TraversalBuilder`. -/
def outStep (s : Store) (b : TraversalBuilder) (edge_label : String) :
    Out TraversalBuilder :=
  chainedStep (fun n => get_out_nodes s n.id edge_label)
    TraversalValue.NodeArray b

/-- `TraversalSteps::out_e` for `TraversalBuilder`. -/
def outEStep (s : Store) (b : TraversalBuilder) (edge_label : String) :
    Out TraversalBuilder :=
  chainedStep (fun n => get_out_edges s n.id edge_label)
    TraversalValue.EdgeArray b

/-- `TraversalSteps::in_` for `TraversalBuilder`. -/
def inStep (s : Store) (b : TraversalBuilder) (edge_label : String) :
    Out TraversalBuilder :=
  chainedStep (fun n => get_in_nodes s n.id edge_label)
    TraversalValue.NodeArray b

/-- `TraversalSteps::in_e` for `TraversalBuilder`. -/
def inEStep (s : Store) (b : TraversalBuilder) (edge_label : String) :
    Out TraversalBuilder :=
  chainedStep (fun n => get_in_edges s n.id edge_label)
    TraversalValue.EdgeArray b

/-! ## Router (`helix-gateway/src/router/router.rs`) -/

/-- The parts of `protocol::request::Request` the router reads. -/
structure RRequest where
  method : String
  path : String
deriving DecidableEq

/-- `protocol::response::Response` (`router/response.rs`): status,
headers and body; `Response::new()` is status 200, a `Content-Type`
header, and an empty body. -/
structure RResponse where
  status : Nat
  headers : List (String × String)
  body : List Nat
deriving DecidableEq

/-- A registered handler: it may mutate the response and returns
`Result<(), RouterError>`; modelled as producing the mutated response. -/
abbrev Handler := RRequest → RResponse → Except String RResponse

/-- `HelixRouter`: the `(method, path) → handler` route table. -/
structure HelixRouter where
  routes : List ((String × String) × Handler)

/-- Route-table lookup (`self.routes.get(&route_key)`). -/
def findRoute : List ((String × String) × Handler) → String × String → Option Handler
  | [], _ => none
  | (k, h) :: rest, key => if k = key then some h else findRoute rest key

/-- `HelixRouter::handle`: look up `(request.method, request.path)`; a
missing route sets status 404 on the response and returns `Ok(())`
without calling any handler; otherwise the handler runs. -/
def handle (r : HelixRouter) (request : RRequest) (response : RResponse) :
    Except String RResponse :=
  match findRoute r.routes (request.method, request.path) with
  | none => Except.ok { response with status := 404 }
  | some h => h request response

/-! ## Bincode serialization of `Value` (`protocol/src/lib.rs`)

`bincode::serialize` with the default configuration: fixed-width
little-endian integers, `u32` enum variant tags, `u64` length prefixes
for `String` and `Vec`.  Variant order follows the declaration:
`String = 0`, `Float = 1`, `Integer = 2`, `Boolean = 3`, `Array = 4`,
`Null = 5`.  The UTF-8 re-validation bincode performs when decoding a
`String` cannot fail on bytes that came from encoding a Rust `String`
and is elided. -/

/-- `count` little-endian bytes of `v` (mod `256 ^ count`). -/
def bytesOfNatLE : Nat → Nat → List Nat
  | 0, _ => []
  | c + 1, v => v % 256 :: bytesOfNatLE c (v / 256)

/-- Reassemble a little-endian byte list into a `Nat`. -/
def natOfBytesLE : List Nat → Nat
  | [] => 0
  | b :: bs => b % 256 + 256 * natOfBytesLE bs

mutual

/-- Byte-level serialization of one `Value`. -/
def serializeValue : RValue → List Nat
  | RValue.str bytes => bytesOfNatLE 4 0 ++ bytesOfNatLE 8 bytes.length ++ bytes
  | RValue.float bits => bytesOfNatLE 4 1 ++ bytesOfNatLE 8 bits
  | RValue.int bits => bytesOfNatLE 4 2 ++ bytesOfNatLE 4 bits
  | RValue.bool b => bytesOfNatLE 4 3 ++ [if b then 1 else 0]
  | RValue.arr vs => bytesOfNatLE 4 4 ++ bytesOfNatLE 8 vs.length ++ serializeList vs
  | RValue.null => bytesOfNatLE 4 5

/-- Serialization of the elements of a `Vec<Value>`, in order. -/
def serializeList : List RValue → List Nat
  | [] => []
  | v :: vs => serializeValue v ++ serializeList vs

end

/-- Take exactly `c` bytes off the front of the stream. -/
def readBytes : Nat → List Nat → Option (List Nat × List Nat)
  | 0, bs => some ([], bs)
  | _ + 1, [] => none
  | c + 1, b :: bs =>
    match readBytes c bs with
    | some (xs, rest) => some (b :: xs, rest)
    | none => none

/-- Deserialize `count` consecutive values with the element parser
`f`. -/
def deserLoop (f : List Nat → Option (RValue × List Nat)) :
    Nat → List Nat → Option (List RValue × List Nat)
  | 0, bs => some ([], bs)
  | count + 1, bs =>
    match f bs with
    | none => none
    | some (v, r1) =>
      match deserLoop f count r1 with
      | none => none
      | some (vs, r2) => some (v :: vs, r2)

/-- Byte-level deserialization of one `Value`; `fuel` bounds the
nesting depth (any fuel at least the value's depth succeeds). -/
def deserValue : Nat → List Nat → Option (RValue × List Nat)
  | 0, _ => none
  | fuel + 1, bs =>
    match readBytes 4 bs with
    | none => none
    | some (tagB, r1) =>
      match natOfBytesLE tagB with
      | 0 =>
        match readBytes 8 r1 with
        | none => none
        | some (lenB, r2) =>
          match readBytes (natOfBytesLE lenB) r2 with
          | none => none
          | some (sB, r3) => some (RValue.str sB, r3)
      | 1 =>
        match readBytes 8 r1 with
        | none => none
        | some (bB, r2) => some (RValue.float (natOfBytesLE bB), r2)
      | 2 =>
        match readBytes 4 r1 with
        | none => none
        | some (iB, r2) => some (RValue.int (natOfBytesLE iB), r2)
      | 3 =>
        match r1 with
        | 0 :: r2 => some (RValue.bool false, r2)
        | 1 :: r2 => some (RValue.bool true, r2)
        | _ => none
      | 4 =>
        match readBytes 8 r1 with
        | none => none
        | some (lenB, r2) =>
          match deserLoop (fun b => deserValue fuel b) (natOfBytesLE lenB) r2 with
          | none => none
          | some (vs, r3) => some (RValue.arr vs, r3)
      | 5 => some (RValue.null, r1)
      | _ => none

/-- IEEE-754 `f64` NaN test on the bit pattern: exponent all ones and a
non-zero mantissa. -/
def isNaN64 (bits : Nat) : Bool :=
  decide (bits / 2 ^ 52 % 2 ^ 11 = 2 ^ 11 - 1) && !decide (bits % 2 ^ 52 = 0)

/-- IEEE-754 `f64` equality (`==` on `f64`, as used by the derived
`PartialEq` of `Value`): false when either side is NaN, true for equal
bit patterns and for `+0.0 = -0.0`. -/
def f64Eq (b1 b2 : Nat) : Bool :=
  !isNaN64 b1 && !isNaN64 b2 &&
    (decide (b1 = b2) ||
     (decide (b1 % 2 ^ 64 % 2 ^ 63 = 0) && decide (b2 % 2 ^ 64 % 2 ^ 63 = 0)))

mutual

/-- The derived `PartialEq` of `Value`: structural, except that `Float`
compares with `f64` equality. -/
def valueEq : RValue → RValue → Bool
  | RValue.str a, RValue.str b => decide (a = b)
  | RValue.float a, RValue.float b => f64Eq a b
  | RValue.int a, RValue.int b => decide (a = b)
  | RValue.bool a, RValue.bool b => decide (a = b)
  | RValue.arr a, RValue.arr b => valueListEq a b
  | RValue.null, RValue.null => true
  | _, _ => false

/-- `PartialEq` on `Vec<Value>`. -/
def valueListEq : List RValue → List RValue → Bool
  | [], [] => true
  | a :: as_, b :: bs => valueEq a b && valueListEq as_ bs
  | _, _ => false

end

mutual

/-- The ranges every value of the Rust `Value` type satisfies: string
and array lengths fit in the `u64` length prefix, `f64` bit patterns
fit 64 bits, `i32` bit patterns fit 32 bits, bytes are bytes. -/
def wfValue : RValue → Prop
  | RValue.str bytes => bytes.length < 2 ^ 64 ∧ ∀ b ∈ bytes, b < 256
  | RValue.float bits => bits < 2 ^ 64
  | RValue.int bits => bits < 2 ^ 32
  | RValue.bool _ => True
  | RValue.arr vs => vs.length < 2 ^ 64 ∧ wfList vs
  | RValue.null => True

/-- `wfValue` for every element. -/
def wfList : List RValue → Prop
  | [] => True
  | v :: vs => wfValue v ∧ wfList vs

end

mutual

/-- No NaN float anywhere inside the value. -/
def noNaN : RValue → Prop
  | RValue.float bits => isNaN64 bits = false
  | RValue.arr vs => noNaNList vs
  | _ => True

/-- `noNaN` for every element. -/
def noNaNList : List RValue → Prop
  | [] => True
  | v :: vs => noNaN v ∧ noNaNList vs

end

mutual

/-- Nesting depth of a value, the fuel needed to deserialize it. -/
def vdepth : RValue → Nat
  | RValue.arr vs => vdepthList vs + 1
  | _ => 1

/-- Maximum depth over a list of values. -/
def vdepthList : List RValue → Nat
  | [] => 0
  | v :: vs => max (vdepth v) (vdepthList vs)

end

/-- `Response::new()` (`router/response.rs`): status 200, a
`Content-Type: text/plain` header, empty body. -/
def responseNew : RResponse := ⟨200, [("Content-Type", "text/plain")], []⟩

/-! ## A concrete scenario used by several claims

Two `person` nodes with ids `A` and `B` and one `knows` edge with id
`E` from `A` to `B` (standing for three concrete v4 UUIDs). -/

/-- The store holding node `A` only. -/
def storeA : Store := (create_node Store.empty "A" "person" []).2

/-- The store holding nodes `A` and `B`. -/
def storeAB : Store := (create_node storeA "B" "person" []).2

/-- The edge record `A ─knows→ B` with id `E`. -/
def eKnows : REdge := ⟨"E", "knows", "A", "B", []⟩

/-- The store holding `A`, `B` and the edge `E`. -/
def storeABE : Store := (create_edge storeAB "E" "knows" "A" "B" []).2

/-- What `drop_node(storeABE, "A")` evaluates to: only the node record
of `A` disappears. -/
def storeAfterDropA : Store :=
  ⟨cfDel storeABE.nodes (node_key "A"), storeABE.edges, []⟩

/-- What `drop_edge(storeABE, "E")` evaluates to: the adjacency entries
and the edge record go, the `el:` label entry stays. -/
def storeAfterDropE : Store :=
  ⟨storeABE.nodes,
   cfDel (cfDel (cfDel storeABE.edges (out_edge_key "A" "E"))
     (in_edge_key "B" "E")) (edge_key "E"), []⟩

/-- The key is present in the column family (with some value). -/
def EKey (cf : CF) (k : Key) : Prop := ∃ v, (k, v) ∈ cf

/-- The id contains no `':'` byte.  Every id the engine generates is a
v4 UUID (hex digits and dashes), so this holds for all ids in a store
the engine built; the colon is what makes the key codec unambiguous. -/
def cleanId (x : String) : Prop := ':' ∉ x.data

instance (x : String) : Decidable (cleanId x) :=
  inferInstanceAs (Decidable (':' ∉ x.data))

/-- The node record is stored under its key (i.e. `get_node` succeeds
and returns `n`). -/
def nodeLive (s : Store) (n : RNode) : Prop :=
  cfGet s.nodes (node_key n.id) = some (StoredVal.nodeRec n)

/-- The edge record is stored under its key (i.e. `get_edge` succeeds
and returns `e`). -/
def edgeLive (s : Store) (e : REdge) : Prop :=
  cfGet s.edges (edge_key e.id) = some (StoredVal.edgeRec e)

/-- The well-formedness invariant the storage engine maintains on every
store it builds from the empty database. -/
structure Inv (s : Store) : Prop where
  /-- Every entry of the edges family is an edge record under an `e:`
  key, or an empty value under an `el:`, `o:` or `i:` key. -/
  edgeEntry : ∀ k v, (k, v) ∈ s.edges →
    (∃ e : REdge, k = edge_key e.id ∧ v = StoredVal.edgeRec e) ∨
    (∃ lbl eid, k = edge_label_key lbl eid ∧ v = StoredVal.emptyVal) ∨
    (∃ f eid, k = out_edge_key f eid ∧ v = StoredVal.emptyVal) ∨
    (∃ t eid, k = in_edge_key t eid ∧ v = StoredVal.emptyVal)
  /-- Every stored edge record sits under its own key, has clean ids,
  and has its adjacency and label entries present. -/
  edgeRecOk : ∀ k (e : REdge), (k, StoredVal.edgeRec e) ∈ s.edges →
    k = edge_key e.id ∧ cleanId e.id ∧ cleanId e.from_node ∧
    cleanId e.to_node ∧ edgeLive s e ∧
    EKey s.edges (out_edge_key e.from_node e.id) ∧
    EKey s.edges (in_edge_key e.to_node e.id) ∧
    EKey s.edges (edge_label_key e.label e.id)
  /-- Every outgoing adjacency entry points at a live edge leaving the
  named node. -/
  outOk : ∀ f eid, EKey s.edges (out_edge_key f eid) →
    cleanId f ∧ cleanId eid ∧
    ∃ e : REdge, cfGet s.edges (edge_key eid) = some (StoredVal.edgeRec e) ∧
      e.from_node = f ∧ e.id = eid
  /-- Every incoming adjacency entry points at a live edge entering the
  named node. -/
  inOk : ∀ t eid, EKey s.edges (in_edge_key t eid) →
    cleanId t ∧ cleanId eid ∧
    ∃ e : REdge, cfGet s.edges (edge_key eid) = some (StoredVal.edgeRec e) ∧
      e.to_node = t ∧ e.id = eid
  /-- Every entry of the nodes family is a node record under an `n:`
  key or an empty value under an `nl:` key. -/
  nodeEntry : ∀ k v, (k, v) ∈ s.nodes →
    (∃ n : RNode, k = node_key n.id ∧ v = StoredVal.nodeRec n) ∨
    (∃ lbl nid, k = node_label_key lbl nid ∧ v = StoredVal.emptyVal)
  /-- Every stored node record sits under its own key, has a clean id,
  and has its label entry present. -/
  nodeRecOk : ∀ k (n : RNode), (k, StoredVal.nodeRec n) ∈ s.nodes →
    k = node_key n.id ∧ cleanId n.id ∧ nodeLive s n ∧
    EKey s.nodes (node_label_key n.label n.id)

/-- The stores the engine can build: any sequence of successful
`create_node`, `create_edge`, `drop_edge` and `drop_node` calls starting
from the empty database.  The id arguments of the create operations
stand for the generated v4 UUIDs: fresh and colon-free. -/
inductive Reach : Store → Prop where
  | empty : Reach Store.empty
  | cnode (s : Store) (id label : String) (props : Props) : Reach s →
      cleanId id → cfGet s.nodes (node_key id) = none →
      Reach (create_node s id label props).2
  | cedge (s : Store) (id label f t : String) (props : Props) (e : REdge)
      (s' : Store) : Reach s → cleanId id →
      cfGet s.edges (edge_key id) = none →
      create_edge s id label f t props = (Out.ok e, s') → Reach s'
  | dedge (s : Store) (eid : String) (s' : Store) : Reach s →
      drop_edge s eid = Out.ok s' → Reach s'
  | dnode (s : Store) (id : String) (s' : Store) : Reach s →
      drop_node s id = Out.ok s' → Reach s'

/-! ## Basic column-family lemmas -/

theorem mem_cfPut {cf : CF} {k : Key} {v : StoredVal} {kv : Key × StoredVal} :
    kv ∈ cfPut cf k v ↔ kv = (k, v) ∨ (kv ∈ cf ∧ kv.1 ≠ k) := by
  simp [cfPut, List.mem_filter]

theorem mem_cfDel {cf : CF} {k : Key} {kv : Key × StoredVal} :
    kv ∈ cfDel cf k ↔ kv ∈ cf ∧ kv.1 ≠ k := by
  simp [cfDel, List.mem_filter]

theorem mem_cfScan {cf : CF} {p : Key} {kv : Key × StoredVal} :
    kv ∈ cfScan cf p ↔ kv ∈ cf ∧ p <+: kv.1 := by
  simp [cfScan, List.mem_filter]

theorem cfGet_put_self (cf : CF) (k : Key) (v : StoredVal) :
    cfGet (cfPut cf k v) k = some v := by
  simp [cfPut, cfGet]

theorem cfGet_filter {cf : CF} {q : Key × StoredVal → Bool} {k : Key}
    (h : ∀ v : StoredVal, q (k, v) = true) :
    cfGet (cf.filter q) k = cfGet cf k := by
  induction cf with
  | nil => rfl
  | cons kv rest ih =>
    by_cases hk : kv.1 = k
    · obtain ⟨k', v⟩ := kv
      subst hk
      simp [List.filter_cons, h v, cfGet]
    · simp only [List.filter_cons]
      cases hq : q kv
      · simpa [cfGet, hk] using ih
      · simpa [cfGet, hk] using ih

theorem cfGet_put_ne {cf : CF} {k k' : Key} {v : StoredVal} (h : k' ≠ k) :
    cfGet (cfPut cf k v) k' = cfGet cf k' := by
  have h2 : ¬ (k = k') := fun hh => h hh.symm
  show (if k = k' then some v
        else cfGet (cf.filter (fun kv => decide (kv.1 ≠ k))) k') = cfGet cf k'
  rw [if_neg h2, cfGet_filter (by intro v'; simpa using h)]

theorem cfGet_del_self (cf : CF) (k : Key) : cfGet (cfDel cf k) k = none := by
  induction cf with
  | nil => rfl
  | cons kv rest ih =>
    by_cases hk : kv.1 = k
    · simpa [cfDel, List.filter_cons, hk] using ih
    · simpa [cfDel, List.filter_cons, hk, cfGet] using ih

theorem cfGet_del_ne {cf : CF} {k k' : Key} (h : k' ≠ k) :
    cfGet (cfDel cf k) k' = cfGet cf k' :=
  cfGet_filter (by intro v'; simpa using h)

theorem EKey_cfPut {cf : CF} {k k' : Key} {v : StoredVal} :
    EKey (cfPut cf k v) k' ↔ k' = k ∨ EKey cf k' := by
  constructor
  · rintro ⟨v', hv'⟩
    rcases mem_cfPut.mp hv' with h | h
    · exact Or.inl (congrArg Prod.fst h)
    · exact Or.inr ⟨v', h.1⟩
  · rintro (rfl | ⟨v', hv'⟩)
    · exact ⟨v, mem_cfPut.mpr (Or.inl rfl)⟩
    · by_cases hk : k' = k
      · exact ⟨v, hk ▸ mem_cfPut.mpr (Or.inl rfl)⟩
      · exact ⟨v', mem_cfPut.mpr (Or.inr ⟨hv', hk⟩)⟩

theorem EKey_cfDel {cf : CF} {k k' : Key} :
    EKey (cfDel cf k) k' ↔ EKey cf k' ∧ k' ≠ k := by
  constructor
  · rintro ⟨v', hv'⟩
    have := mem_cfDel.mp hv'
    exact ⟨⟨v', this.1⟩, this.2⟩
  · rintro ⟨⟨v', hv'⟩, hk⟩
    exact ⟨v', mem_cfDel.mpr ⟨hv', hk⟩⟩

theorem cfGet_mem {cf : CF} {k : Key} {v : StoredVal}
    (h : cfGet cf k = some v) : (k, v) ∈ cf := by
  induction cf with
  | nil => exact absurd h (by simp [cfGet])
  | cons kv rest ih =>
    obtain ⟨k', v'⟩ := kv
    by_cases hk : k' = k
    · subst hk
      simp [cfGet] at h
      subst h
      exact List.mem_cons_self _ _
    · simp only [cfGet, if_neg hk] at h
      exact List.mem_cons_of_mem _ (ih h)

theorem EKey_cfGet {cf : CF} {k : Key} (h : EKey cf k) :
    ∃ v, cfGet cf k = some v := by
  obtain ⟨v, hv⟩ := h
  induction cf with
  | nil => cases hv
  | cons kv rest ih =>
    obtain ⟨k', v'⟩ := kv
    by_cases hk : k' = k
    · exact ⟨v', by simp [cfGet, hk]⟩
    · rcases List.mem_cons.mp hv with h | h
      · cases h; exact absurd rfl hk
      · obtain ⟨w, hw⟩ := ih h
        exact ⟨w, by simpa [cfGet, hk] using hw⟩

/-! ## Key-codec lemmas -/

theorem string_data_inj {a b : String} (h : a.data = b.data) : a = b := by
  cases a; cases b; cases h; rfl

theorem node_key_inj {a b : String} (h : node_key a = node_key b) : a = b := by
  simp only [node_key, List.cons.injEq, true_and] at h
  exact string_data_inj h

theorem edge_key_inj {a b : String} (h : edge_key a = edge_key b) : a = b := by
  simp only [edge_key, List.cons.injEq, true_and] at h
  exact string_data_inj h

theorem node_key_ne_label {a l b : String} :
    node_key a ≠ node_label_key l b := by
  simp [node_key, node_label_key]

theorem edge_key_ne_label {a l b : String} :
    edge_key a ≠ edge_label_key l b := by
  simp [edge_key, edge_label_key]

theorem edge_key_ne_out {a f e : String} : edge_key a ≠ out_edge_key f e := by
  simp [edge_key, out_edge_key]

theorem edge_key_ne_in {a t e : String} : edge_key a ≠ in_edge_key t e := by
  simp [edge_key, in_edge_key]

theorem label_key_ne_out {l a f e : String} :
    edge_label_key l a ≠ out_edge_key f e := by
  simp [edge_label_key, out_edge_key]

theorem label_key_ne_in {l a t e : String} :
    edge_label_key l a ≠ in_edge_key t e := by
  simp [edge_label_key, in_edge_key]

theorem out_ne_in {f e t e' : String} :
    out_edge_key f e ≠ in_edge_key t e' := by
  simp [out_edge_key, in_edge_key]

/-- Splitting a byte string at a colon is unambiguous when one known
decomposition has colon-free parts. -/
theorem colon_split {b y : List Char} (hb : ':' ∉ b) (hy : ':' ∉ y) :
    ∀ {a x : List Char}, a ++ ':' :: x = b ++ ':' :: y → a = b ∧ x = y := by
  induction b with
  | nil =>
    intro a x h
    cases a with
    | nil => simpa using h
    | cons c a' =>
      simp only [List.cons_append, List.nil_append, List.cons.injEq] at h
      obtain ⟨rfl, h2⟩ := h
      exact absurd (h2 ▸ List.mem_append_right a' (List.mem_cons_self _ _)) hy
  | cons d b' ih =>
    intro a x h
    cases a with
    | nil =>
      simp only [List.nil_append, List.cons_append, List.cons.injEq] at h
      exact absurd (h.1 ▸ List.mem_cons_self d b') hb
    | cons c a' =>
      simp only [List.cons_append, List.cons.injEq] at h
      obtain ⟨rfl, h2⟩ := h
      obtain ⟨rfl, rfl⟩ := ih (fun hm => hb (List.mem_cons_of_mem _ hm)) h2
      exact ⟨rfl, rfl⟩

/-- The adjacency-scan prefix test: with colon-free ids,
`"x:" ∥ n ∥ ":"` is a prefix of `"x:" ∥ f ∥ ":" ∥ e` exactly when
`f = n` (stated here on the id byte strings, after the two fixed prefix
bytes are stripped). -/
theorem colon_pre_iff {a b x : List Char} (ha : ':' ∉ a) (hb : ':' ∉ b) :
    (b ++ [':']) <+: (a ++ ':' :: x) ↔ b = a := by
  induction a generalizing b with
  | nil =>
    cases b with
    | nil => simp
    | cons d b' =>
      simp only [List.cons_append, List.nil_append]
      constructor
      · intro h
        obtain ⟨t, ht⟩ := h
        simp only [List.cons_append, List.cons.injEq] at ht
        exact absurd (ht.1 ▸ List.mem_cons_self d b') hb
      · intro h; cases h
  | cons c a' ih =>
    cases b with
    | nil =>
      simp only [List.nil_append, List.cons_append]
      constructor
      · intro h
        obtain ⟨t, ht⟩ := h
        simp only [List.singleton_append, List.cons.injEq] at ht
        exact absurd (ht.1.symm ▸ List.mem_cons_self c a') ha
      · intro h; cases h
    | cons d b' =>
      have ha' : ':' ∉ a' := fun hm => ha (List.mem_cons_of_mem _ hm)
      have hb' : ':' ∉ b' := fun hm => hb (List.mem_cons_of_mem _ hm)
      simp only [List.cons_append, List.cons_prefix_cons]
      rw [ih ha' hb']
      constructor
      · rintro ⟨rfl, rfl⟩; rfl
      · intro h
        injection h with h1 h2
        exact ⟨h1, h2⟩

theorem pre_head {c : Char} {p k : List Char} (h : (c :: p) <+: k) :
    ∃ k', k = c :: k' := by
  obtain ⟨t, ht⟩ := h
  exact ⟨p ++ t, by simpa using ht.symm⟩

theorem out_key_decomp (n e : String) :
    out_edge_key n e = out_edge_key n "" ++ e.data := by
  show 'o' :: ':' :: (n.data ++ ':' :: e.data) =
      ('o' :: ':' :: (n.data ++ ':' :: [])) ++ e.data
  simp

theorem in_key_decomp (n e : String) :
    in_edge_key n e = in_edge_key n "" ++ e.data := by
  show 'i' :: ':' :: (n.data ++ ':' :: e.data) =
      ('i' :: ':' :: (n.data ++ ':' :: [])) ++ e.data
  simp

theorem out_key_drop (n e : String) :
    String.mk ((out_edge_key n e).drop (out_edge_key n "").length) = e := by
  rw [out_key_decomp n e, List.drop_left]

theorem in_key_drop (n e : String) :
    String.mk ((in_edge_key n e).drop (in_edge_key n "").length) = e := by
  rw [in_key_decomp n e, List.drop_left]

/-- The scan-prefix test on whole out-adjacency keys. -/
theorem out_pre_iff {n f e : String} (hn : cleanId n) (hf : cleanId f) :
    (out_edge_key n "") <+: out_edge_key f e ↔ f = n := by
  show ('o' :: ':' :: (n.data ++ [':'])) <+: ('o' :: ':' :: (f.data ++ ':' :: e.data)) ↔ f = n
  rw [List.cons_prefix_cons, List.cons_prefix_cons]
  simp only [true_and]
  rw [colon_pre_iff hf hn]
  constructor
  · intro h; exact (string_data_inj h).symm
  · intro h; cases h; rfl

/-- The scan-prefix test on whole in-adjacency keys. -/
theorem in_pre_iff {n t e : String} (hn : cleanId n) (ht : cleanId t) :
    (in_edge_key n "") <+: in_edge_key t e ↔ t = n := by
  show ('i' :: ':' :: (n.data ++ [':'])) <+: ('i' :: ':' :: (t.data ++ ':' :: e.data)) ↔ t = n
  rw [List.cons_prefix_cons, List.cons_prefix_cons]
  simp only [true_and]
  rw [colon_pre_iff ht hn]
  constructor
  · intro h; exact (string_data_inj h).symm
  · intro h; cases h; rfl

/-- Injectivity of out-adjacency keys when one side has clean ids. -/
theorem out_key_inj {f e f' e' : String} (hf : cleanId f) (he : cleanId e)
    (h : out_edge_key f' e' = out_edge_key f e) : f' = f ∧ e' = e := by
  simp only [out_edge_key, List.cons.injEq, true_and] at h
  obtain ⟨h1, h2⟩ := colon_split hf he h
  exact ⟨string_data_inj h1, string_data_inj h2⟩

/-- Injectivity of in-adjacency keys when one side has clean ids. -/
theorem in_key_inj {t e t' e' : String} (ht : cleanId t) (he : cleanId e)
    (h : in_edge_key t' e' = in_edge_key t e) : t' = t ∧ e' = e := by
  simp only [in_edge_key, List.cons.injEq, true_and] at h
  obtain ⟨h1, h2⟩ := colon_split ht he h
  exact ⟨string_data_inj h1, string_data_inj h2⟩

/-! ## Inversion lemmas for the mutating operations -/

theorem cfGet_none_not_EKey {cf : CF} {k : Key} (h : cfGet cf k = none) :
    ¬ EKey cf k := by
  intro he
  obtain ⟨v, hv⟩ := EKey_cfGet he
  rw [h] at hv
  cases hv

theorem create_node_eq (s : Store) (id label : String) (props : Props) :
    (create_node s id label props).2 =
      ⟨cfPut (cfPut s.nodes (node_key id)
          (StoredVal.nodeRec ⟨id, label, props⟩))
        (node_label_key label id) StoredVal.emptyVal,
       s.edges, s.indices⟩ := rfl

theorem create_edge_ok {s : Store} {id label f t : String} {props : Props}
    {e : REdge} {s' : Store}
    (h : create_edge s id label f t props = (Out.ok e, s')) :
    (∃ nf, get_node s f = Out.ok nf) ∧ (∃ nt, get_node s t = Out.ok nt) ∧
    e = ⟨id, label, f, t, props⟩ ∧
    s' = ⟨s.nodes,
      cfPut (cfPut (cfPut (cfPut s.edges
        (edge_key id) (StoredVal.edgeRec ⟨id, label, f, t, props⟩))
        (edge_label_key label id) StoredVal.emptyVal)
        (out_edge_key f id) StoredVal.emptyVal)
        (in_edge_key t id) StoredVal.emptyVal,
      s.indices⟩ := by
  unfold create_edge at h
  rcases hf : get_node s f with nf | m | _ <;> rw [hf] at h
  · rcases ht : get_node s t with nt | m | _ <;> rw [ht] at h
    · injection h with h1 h2
      injection h1 with h1
      exact ⟨⟨nf, rfl⟩, ⟨nt, rfl⟩, h1.symm, h2.symm⟩
    · cases h
    · cases h
  · cases h
  · cases h

theorem drop_edge_ok {s : Store} {eid : String} {s' : Store}
    (h : drop_edge s eid = Out.ok s') :
    ∃ e : REdge, cfGet s.edges (edge_key eid) = some (StoredVal.edgeRec e) ∧
      s' = ⟨s.nodes,
        cfDel (cfDel (cfDel s.edges (out_edge_key e.from_node eid))
          (in_edge_key e.to_node eid)) (edge_key eid),
        s.indices⟩ := by
  unfold drop_edge at h
  rcases hg : cfGet s.edges (edge_key eid) with _ | v <;> rw [hg] at h
  · cases h
  · rcases v with n | e | _
    · cases h
    · injection h with h1
      exact ⟨e, rfl, h1.symm⟩
    · cases h

theorem get_node_ok_clean {s : Store} {x : String} {n : RNode}
    (hInv : Inv s) (h : get_node s x = Out.ok n) :
    x = n.id ∧ cleanId x ∧ nodeLive s n := by
  unfold get_node at h
  rcases hg : cfGet s.nodes (node_key x) with _ | v <;> rw [hg] at h
  · cases h
  · rcases v with n' | e | _
    · injection h with h1
      obtain ⟨hk, hc, hl, _⟩ := hInv.nodeRecOk _ _ (cfGet_mem hg)
      rw [h1] at hk hc hl
      have hx : x = n.id := node_key_inj hk
      exact ⟨hx, hx ▸ hc, hl⟩
    · cases h
    · cases h

/-! ## Invariant preservation -/

theorem inv_empty : Inv Store.empty := by
  constructor
  · rintro k v ⟨⟩
  · rintro k e ⟨⟩
  · rintro f eid ⟨v, ⟨⟩⟩
  · rintro t eid ⟨v, ⟨⟩⟩
  · rintro k v ⟨⟩
  · rintro k n ⟨⟩

theorem inv_create_node (s : Store) (id label : String) (props : Props)
    (hInv : Inv s) (hid : cleanId id) :
    Inv (create_node s id label props).2 := by
  rw [create_node_eq]
  constructor
  · exact hInv.edgeEntry
  · exact hInv.edgeRecOk
  · exact hInv.outOk
  · exact hInv.inOk
  · intro k v hkv
    rcases mem_cfPut.mp hkv with hp | ⟨hkv, _⟩
    · injection hp with h1 h2
      exact Or.inr ⟨label, id, h1, h2⟩
    · rcases mem_cfPut.mp hkv with hp | ⟨hkv, _⟩
      · injection hp with h1 h2
        exact Or.inl ⟨⟨id, label, props⟩, h1, h2⟩
      · exact hInv.nodeEntry k v hkv
  · intro k n hkv
    rcases mem_cfPut.mp hkv with hp | ⟨hkv, hne2⟩
    · injection hp with h1 h2
      cases h2
    · rcases mem_cfPut.mp hkv with hp | ⟨hkv, hne1⟩
      · injection hp with h1 h2
        injection h2 with h2
        subst h2
        refine ⟨h1, hid, ?_, ?_⟩
        · show cfGet (cfPut _ (node_label_key label id) _) (node_key id) =
            some (StoredVal.nodeRec ⟨id, label, props⟩)
          rw [cfGet_put_ne node_key_ne_label, cfGet_put_self]
        · exact EKey_cfPut.mpr (Or.inl rfl)
      · obtain ⟨hk, hc, hl, hE⟩ := hInv.nodeRecOk k n hkv
        refine ⟨hk, hc, ?_, ?_⟩
        · show cfGet _ (node_key n.id) = some (StoredVal.nodeRec n)
          rw [← hk]
          rw [cfGet_put_ne hne2, cfGet_put_ne hne1]
          rw [hk]
          exact hl
        · exact EKey_cfPut.mpr (Or.inr (EKey_cfPut.mpr (Or.inr hE)))

theorem inv_create_edge {s : Store} {id label f t : String} {props : Props}
    {e : REdge} {s' : Store} (hInv : Inv s) (hid : cleanId id)
    (hfresh : cfGet s.edges (edge_key id) = none)
    (h : create_edge s id label f t props = (Out.ok e, s')) : Inv s' := by
  obtain ⟨⟨nf, hnf⟩, ⟨nt, hnt⟩, he, hs'⟩ := create_edge_ok h
  obtain ⟨-, hcf, -⟩ := get_node_ok_clean hInv hnf
  obtain ⟨-, hct, -⟩ := get_node_ok_clean hInv hnt
  subst hs'
  have hget : cfGet (cfPut (cfPut (cfPut (cfPut s.edges
      (edge_key id) (StoredVal.edgeRec ⟨id, label, f, t, props⟩))
      (edge_label_key label id) StoredVal.emptyVal)
      (out_edge_key f id) StoredVal.emptyVal)
      (in_edge_key t id) StoredVal.emptyVal) (edge_key id) =
      some (StoredVal.edgeRec ⟨id, label, f, t, props⟩) := by
    rw [cfGet_put_ne edge_key_ne_in, cfGet_put_ne edge_key_ne_out,
      cfGet_put_ne edge_key_ne_label, cfGet_put_self]
  constructor
  · intro k v hkv
    rcases mem_cfPut.mp hkv with hp | ⟨hkv, _⟩
    · injection hp with h1 h2
      exact Or.inr (Or.inr (Or.inr ⟨t, id, h1, h2⟩))
    rcases mem_cfPut.mp hkv with hp | ⟨hkv, _⟩
    · injection hp with h1 h2
      exact Or.inr (Or.inr (Or.inl ⟨f, id, h1, h2⟩))
    rcases mem_cfPut.mp hkv with hp | ⟨hkv, _⟩
    · injection hp with h1 h2
      exact Or.inr (Or.inl ⟨label, id, h1, h2⟩)
    rcases mem_cfPut.mp hkv with hp | ⟨hkv, _⟩
    · injection hp with h1 h2
      exact Or.inl ⟨⟨id, label, f, t, props⟩, h1, h2⟩
    · exact hInv.edgeEntry k v hkv
  · intro k e' hkv
    rcases mem_cfPut.mp hkv with hp | ⟨hkv, hne4⟩
    · injection hp with h1 h2; cases h2
    rcases mem_cfPut.mp hkv with hp | ⟨hkv, hne3⟩
    · injection hp with h1 h2; cases h2
    rcases mem_cfPut.mp hkv with hp | ⟨hkv, hne2⟩
    · injection hp with h1 h2; cases h2
    rcases mem_cfPut.mp hkv with hp | ⟨hkv, hne1⟩
    · injection hp with h1 h2
      injection h2 with h2
      subst h2
      refine ⟨h1, hid, hcf, hct, hget, ?_, ?_, ?_⟩
      · exact EKey_cfPut.mpr (Or.inr (EKey_cfPut.mpr (Or.inl rfl)))
      · exact EKey_cfPut.mpr (Or.inl rfl)
      · exact EKey_cfPut.mpr (Or.inr (EKey_cfPut.mpr (Or.inr
          (EKey_cfPut.mpr (Or.inl rfl)))))
    · obtain ⟨hk, hc1, hc2, hc3, hl, hEo, hEi, hEl⟩ := hInv.edgeRecOk k e' hkv
      rw [hk] at hne1
      refine ⟨hk, hc1, hc2, hc3, ?_, ?_, ?_, ?_⟩
      · show cfGet _ (edge_key e'.id) = some (StoredVal.edgeRec e')
        rw [cfGet_put_ne edge_key_ne_in, cfGet_put_ne edge_key_ne_out,
          cfGet_put_ne edge_key_ne_label, cfGet_put_ne hne1]
        exact hl
      · exact EKey_cfPut.mpr (Or.inr (EKey_cfPut.mpr (Or.inr
          (EKey_cfPut.mpr (Or.inr (EKey_cfPut.mpr (Or.inr hEo)))))))
      · exact EKey_cfPut.mpr (Or.inr (EKey_cfPut.mpr (Or.inr
          (EKey_cfPut.mpr (Or.inr (EKey_cfPut.mpr (Or.inr hEi)))))))
      · exact EKey_cfPut.mpr (Or.inr (EKey_cfPut.mpr (Or.inr
          (EKey_cfPut.mpr (Or.inr (EKey_cfPut.mpr (Or.inr hEl)))))))
  · intro f₀ eid₀ hE
    rcases EKey_cfPut.mp hE with h4 | hE
    · exact absurd h4 out_ne_in
    rcases EKey_cfPut.mp hE with h3 | hE
    · obtain ⟨h5, h6⟩ := out_key_inj hcf hid h3
      refine ⟨?_, ?_, ⟨id, label, f, t, props⟩, ?_, ?_, ?_⟩
      · rw [h5]; exact hcf
      · rw [h6]; exact hid
      · rw [h6]; exact hget
      · rw [h5]
      · rw [h6]
    rcases EKey_cfPut.mp hE with h2 | hE
    · exact absurd h2.symm label_key_ne_out
    rcases EKey_cfPut.mp hE with h1 | hE
    · exact absurd h1.symm edge_key_ne_out
    · obtain ⟨hc0, hc1, e'', hg'', hfrom, hid''⟩ := hInv.outOk f₀ eid₀ hE
      have hne : edge_key eid₀ ≠ edge_key id := by
        intro hh
        rw [edge_key_inj hh] at hg''
        rw [hfresh] at hg''
        cases hg''
      refine ⟨hc0, hc1, e'', ?_, hfrom, hid''⟩
      rw [cfGet_put_ne edge_key_ne_in, cfGet_put_ne edge_key_ne_out,
        cfGet_put_ne edge_key_ne_label, cfGet_put_ne hne]
      exact hg''
  · intro t₀ eid₀ hE
    rcases EKey_cfPut.mp hE with h4 | hE
    · obtain ⟨h5, h6⟩ := in_key_inj hct hid h4
      refine ⟨?_, ?_, ⟨id, label, f, t, props⟩, ?_, ?_, ?_⟩
      · rw [h5]; exact hct
      · rw [h6]; exact hid
      · rw [h6]; exact hget
      · rw [h5]
      · rw [h6]
    rcases EKey_cfPut.mp hE with h3 | hE
    · exact absurd h3.symm out_ne_in
    rcases EKey_cfPut.mp hE with h2 | hE
    · exact absurd h2.symm label_key_ne_in
    rcases EKey_cfPut.mp hE with h1 | hE
    · exact absurd h1.symm edge_key_ne_in
    · obtain ⟨hc0, hc1, e'', hg'', hto, hid''⟩ := hInv.inOk t₀ eid₀ hE
      have hne : edge_key eid₀ ≠ edge_key id := by
        intro hh
        rw [edge_key_inj hh] at hg''
        rw [hfresh] at hg''
        cases hg''
      refine ⟨hc0, hc1, e'', ?_, hto, hid''⟩
      rw [cfGet_put_ne edge_key_ne_in, cfGet_put_ne edge_key_ne_out,
        cfGet_put_ne edge_key_ne_label, cfGet_put_ne hne]
      exact hg''
  · exact hInv.nodeEntry
  · exact hInv.nodeRecOk

theorem inv_drop_edge {s : Store} {eid : String} {s' : Store}
    (hInv : Inv s) (h : drop_edge s eid = Out.ok s') :
    Inv s' ∧ s'.nodes = s.nodes ∧ s'.indices = s.indices := by
  obtain ⟨e, he, hs'⟩ := drop_edge_ok h
  obtain ⟨hk, hcid, hcfr, hcto, -, -, -, -⟩ := hInv.edgeRecOk _ _ (cfGet_mem he)
  have heid : eid = e.id := edge_key_inj hk
  subst hs'
  refine ⟨?_, rfl, rfl⟩
  constructor
  · intro k v hkv
    rw [mem_cfDel] at hkv
    rw [mem_cfDel] at hkv
    rw [mem_cfDel] at hkv
    exact hInv.edgeEntry k v hkv.1.1.1
  · intro k e' hkv
    rw [mem_cfDel] at hkv
    obtain ⟨hkv, hneE⟩ := hkv
    rw [mem_cfDel] at hkv
    obtain ⟨hkv, hneI⟩ := hkv
    rw [mem_cfDel] at hkv
    obtain ⟨hkv, hneO⟩ := hkv
    obtain ⟨hk', hc1, hc2, hc3, hl, hEo, hEi, hEl⟩ := hInv.edgeRecOk k e' hkv
    rw [hk'] at hneE
    have hne : e'.id ≠ eid := fun hh => hneE (by rw [hh])
    refine ⟨hk', hc1, hc2, hc3, ?_, ?_, ?_, ?_⟩
    · show cfGet _ (edge_key e'.id) = some (StoredVal.edgeRec e')
      rw [cfGet_del_ne (fun hh => hne (edge_key_inj hh)),
        cfGet_del_ne edge_key_ne_in, cfGet_del_ne edge_key_ne_out]
      exact hl
    · refine EKey_cfDel.mpr ⟨EKey_cfDel.mpr ⟨EKey_cfDel.mpr ⟨hEo, ?_⟩, ?_⟩, ?_⟩
      · intro hh
        exact hne (heid ▸ (out_key_inj hcfr (heid ▸ hcid) hh).2)
      · exact out_ne_in
      · exact fun hh => edge_key_ne_out hh.symm
    · refine EKey_cfDel.mpr ⟨EKey_cfDel.mpr ⟨EKey_cfDel.mpr ⟨hEi, ?_⟩, ?_⟩, ?_⟩
      · exact fun hh => out_ne_in hh.symm
      · intro hh
        exact hne (heid ▸ (in_key_inj hcto (heid ▸ hcid) hh).2)
      · exact fun hh => edge_key_ne_in hh.symm
    · refine EKey_cfDel.mpr ⟨EKey_cfDel.mpr ⟨EKey_cfDel.mpr ⟨hEl, ?_⟩, ?_⟩, ?_⟩
      · exact label_key_ne_out
      · exact label_key_ne_in
      · exact fun hh => edge_key_ne_label hh.symm
  · intro f₀ eid₀ hE
    rw [EKey_cfDel] at hE
    obtain ⟨hE, hneE⟩ := hE
    rw [EKey_cfDel] at hE
    obtain ⟨hE, hneI⟩ := hE
    rw [EKey_cfDel] at hE
    obtain ⟨hE, hneO⟩ := hE
    obtain ⟨hc0, hc1, e'', hg'', hfrom, hid''⟩ := hInv.outOk f₀ eid₀ hE
    have hne : eid₀ ≠ eid := by
      intro hh
      subst hh
      rw [he] at hg''
      injection hg'' with hg''
      injection hg'' with hg''
      apply hneO
      rw [← hfrom, ← hg'']
    refine ⟨hc0, hc1, e'', ?_, hfrom, hid''⟩
    rw [cfGet_del_ne (fun hh => hne (edge_key_inj hh)),
      cfGet_del_ne edge_key_ne_in, cfGet_del_ne edge_key_ne_out]
    exact hg''
  · intro t₀ eid₀ hE
    rw [EKey_cfDel] at hE
    obtain ⟨hE, hneE⟩ := hE
    rw [EKey_cfDel] at hE
    obtain ⟨hE, hneI⟩ := hE
    rw [EKey_cfDel] at hE
    obtain ⟨hE, hneO⟩ := hE
    obtain ⟨hc0, hc1, e'', hg'', hto, hid''⟩ := hInv.inOk t₀ eid₀ hE
    have hne : eid₀ ≠ eid := by
      intro hh
      subst hh
      rw [he] at hg''
      injection hg'' with hg''
      injection hg'' with hg''
      apply hneI
      rw [← hto, ← hg'']
    refine ⟨hc0, hc1, e'', ?_, hto, hid''⟩
    rw [cfGet_del_ne (fun hh => hne (edge_key_inj hh)),
      cfGet_del_ne edge_key_ne_in, cfGet_del_ne edge_key_ne_out]
    exact hg''
  · exact hInv.nodeEntry
  · exact hInv.nodeRecOk

theorem dropScanned_inv (p : Key) :
    ∀ (l : CF) (s s' : Store), Inv s → dropScanned p s l = Out.ok s' →
      Inv s' ∧ s'.nodes = s.nodes ∧ s'.indices = s.indices := by
  intro l
  induction l with
  | nil =>
    intro s s' hInv h
    injection h with h
    exact h ▸ ⟨hInv, rfl, rfl⟩
  | cons kv rest ih =>
    intro s s' hInv h
    obtain ⟨k, v⟩ := kv
    unfold dropScanned at h
    rcases hde : drop_edge s (String.mk (k.drop p.length)) with s1 | m | _ <;>
      rw [hde] at h
    · obtain ⟨hInv1, hn1, hi1⟩ := inv_drop_edge hInv hde
      obtain ⟨hInv', hn', hi'⟩ := ih s1 s' hInv1 h
      exact ⟨hInv', hn'.trans hn1, hi'.trans hi1⟩
    · cases h
    · cases h

theorem scan_nodes_no_out {s : Store} (hInv : Inv s) (id : String) :
    cfScan s.nodes (out_edge_key id "") = [] := by
  rw [cfScan, List.filter_eq_nil_iff]
  intro kv hkv
  intro hpre
  rw [List.isPrefixOf_iff_prefix] at hpre
  obtain ⟨k', hk'⟩ := pre_head
    (show ('o' :: ':' :: (id.data ++ ':' :: "".data)) <+: kv.1 from hpre)
  rcases hInv.nodeEntry kv.1 kv.2 hkv with ⟨n, hn, -⟩ | ⟨lbl, nid, hn, -⟩ <;>
    rw [hk'] at hn <;> cases hn

theorem drop_node_ok {s : Store} {id : String} {s' : Store} (hInv : Inv s)
    (h : drop_node s id = Out.ok s') :
    ∃ s2, dropScanned (in_edge_key id "") s
        (cfScan s.edges (in_edge_key id "")) = Out.ok s2 ∧
      s' = ⟨cfDel s2.nodes (node_key id), s2.edges, s2.indices⟩ := by
  unfold drop_node at h
  rw [scan_nodes_no_out hInv] at h
  simp only [dropScanned] at h
  rcases hds : dropScanned (in_edge_key id "") s
      (cfScan s.edges (in_edge_key id "")) with s2 | m | _ <;> rw [hds] at h
  · injection h with h
    exact ⟨s2, rfl, h.symm⟩
  · cases h
  · cases h

theorem inv_drop_node {s : Store} {id : String} {s' : Store}
    (hInv : Inv s) (h : drop_node s id = Out.ok s') : Inv s' := by
  obtain ⟨s2, hds, hs'⟩ := drop_node_ok hInv h
  obtain ⟨hInv2, hn2, hi2⟩ := dropScanned_inv _ _ _ _ hInv hds
  subst hs'
  constructor
  · exact hInv2.edgeEntry
  · intro k e' hkv
    obtain ⟨hk', hc1, hc2, hc3, hl, hEo, hEi, hEl⟩ := hInv2.edgeRecOk k e' hkv
    exact ⟨hk', hc1, hc2, hc3, hl, hEo, hEi, hEl⟩
  · exact hInv2.outOk
  · exact hInv2.inOk
  · intro k v hkv
    rw [mem_cfDel] at hkv
    exact hInv2.nodeEntry k v hkv.1
  · intro k n hkv
    rw [mem_cfDel] at hkv
    obtain ⟨hkv, hne⟩ := hkv
    obtain ⟨hk', hc, hl, hE⟩ := hInv2.nodeRecOk k n hkv
    rw [hk'] at hne
    refine ⟨hk', hc, ?_, ?_⟩
    · show cfGet _ (node_key n.id) = some (StoredVal.nodeRec n)
      rw [cfGet_del_ne hne]
      exact hl
    · exact EKey_cfDel.mpr ⟨hE, fun hh => node_key_ne_label hh.symm⟩

/-- Every store the engine can build satisfies the invariant. -/
theorem reach_inv {s : Store} (h : Reach s) : Inv s := by
  induction h with
  | empty => exact inv_empty
  | cnode s id label props _ hclean _ ih => exact inv_create_node s id label props ih hclean
  | cedge s id label f t props e s' _ hclean hfresh hok ih =>
    exact inv_create_edge ih hclean hfresh hok
  | dedge s eid s' _ hok ih => exact (inv_drop_edge ih hok).1
  | dnode s id s' _ hok ih => exact inv_drop_node ih hok

/-! ## Characterization of the adjacency scans -/

theorem get_edge_of_live {s : Store} {e : REdge} (h : edgeLive s e) :
    get_edge s e.id = Out.ok e := by
  unfold get_edge
  rw [h]

theorem get_node_of_live {s : Store} {n : RNode} (h : nodeLive s n) :
    get_node s n.id = Out.ok n := by
  unfold get_node
  rw [h]

theorem collectEdges_ok (s : Store) (p : Key) (L : String) :
    ∀ l : CF, (∀ kv ∈ l, ∃ e : REdge,
        get_edge s (String.mk (kv.1.drop p.length)) = Out.ok e) →
    ∃ es, collectEdges s p L l = Out.ok es ∧
      ∀ e : REdge, e ∈ es ↔ e.label = L ∧
        ∃ kv ∈ l, get_edge s (String.mk (kv.1.drop p.length)) = Out.ok e := by
  intro l
  induction l with
  | nil =>
    refine fun _ => ⟨[], rfl, fun e => ⟨fun h => absurd h (List.not_mem_nil e), ?_⟩⟩
    rintro ⟨-, kv, hkv, -⟩
    cases hkv
  | cons kv rest ih =>
    intro hall
    obtain ⟨k, v⟩ := kv
    obtain ⟨e0, he0⟩ := hall (k, v) (List.mem_cons_self _ _)
    obtain ⟨es, hes, hmem⟩ := ih (fun kv h => hall kv (List.mem_cons_of_mem _ h))
    refine ⟨if e0.label = L then e0 :: es else es, ?_, ?_⟩
    · show collectEdges s p L ((k, v) :: rest) = _
      unfold collectEdges
      rw [he0, hes]
    · intro e
      by_cases hL : e0.label = L
      · rw [if_pos hL]
        constructor
        · intro hmem'
          rcases List.mem_cons.mp hmem' with rfl | hmem''
          · exact ⟨hL, (k, v), List.mem_cons_self _ _, he0⟩
          · obtain ⟨hlbl, kv', hkv', hget⟩ := (hmem e).mp hmem''
            exact ⟨hlbl, kv', List.mem_cons_of_mem _ hkv', hget⟩
        · rintro ⟨hlbl, kv', hkv', hget⟩
          rcases List.mem_cons.mp hkv' with rfl | h'
          · rw [he0] at hget
            injection hget with hget
            exact hget ▸ List.mem_cons_self _ _
          · exact List.mem_cons_of_mem _ ((hmem e).mpr ⟨hlbl, kv', h', hget⟩)
      · rw [if_neg hL]
        constructor
        · intro hmem'
          obtain ⟨hlbl, kv', hkv', hget⟩ := (hmem e).mp hmem'
          exact ⟨hlbl, kv', List.mem_cons_of_mem _ hkv', hget⟩
        · rintro ⟨hlbl, kv', hkv', hget⟩
          rcases List.mem_cons.mp hkv' with rfl | h'
          · rw [he0] at hget
            injection hget with hget
            rw [← hget] at hlbl
            exact absurd hlbl hL
          · exact (hmem e).mpr ⟨hlbl, kv', h', hget⟩

theorem scan_out_mem {s : Store} (hInv : Inv s) {n : String} (hn : cleanId n)
    {kv : Key × StoredVal}
    (hkv : kv ∈ cfScan s.edges (out_edge_key n "")) :
    ∃ e : REdge, kv.1 = out_edge_key n e.id ∧ edgeLive s e ∧
      e.from_node = n := by
  rw [mem_cfScan] at hkv
  obtain ⟨hmem, hpre⟩ := hkv
  rcases hInv.edgeEntry kv.1 kv.2 hmem with ⟨e, hk, -⟩ | ⟨lbl, eid, hk, -⟩ |
    ⟨f, eid, hk, -⟩ | ⟨t, eid, hk, -⟩
  · rw [hk] at hpre
    simp [out_edge_key, edge_key, List.cons_prefix_cons] at hpre
  · rw [hk] at hpre
    simp [out_edge_key, edge_label_key, List.cons_prefix_cons] at hpre
  · have hEK : EKey s.edges (out_edge_key f eid) :=
      ⟨kv.2, by rw [← hk]; exact hmem⟩
    obtain ⟨hcf, hceid, e, hg, hfrom, hid⟩ := hInv.outOk f eid hEK
    rw [hk] at hpre
    have hfn : f = n := (out_pre_iff hn hcf).mp hpre
    refine ⟨e, ?_, ?_, ?_⟩
    · rw [hk, hfn, hid]
    · show cfGet s.edges (edge_key e.id) = some (StoredVal.edgeRec e)
      rw [hid]
      exact hg
    · rw [hfrom, hfn]
  · rw [hk] at hpre
    simp [out_edge_key, in_edge_key, List.cons_prefix_cons] at hpre

theorem scan_in_mem {s : Store} (hInv : Inv s) {n : String} (hn : cleanId n)
    {kv : Key × StoredVal}
    (hkv : kv ∈ cfScan s.edges (in_edge_key n "")) :
    ∃ e : REdge, kv.1 = in_edge_key n e.id ∧ edgeLive s e ∧
      e.to_node = n := by
  rw [mem_cfScan] at hkv
  obtain ⟨hmem, hpre⟩ := hkv
  rcases hInv.edgeEntry kv.1 kv.2 hmem with ⟨e, hk, -⟩ | ⟨lbl, eid, hk, -⟩ |
    ⟨f, eid, hk, -⟩ | ⟨t, eid, hk, -⟩
  · rw [hk] at hpre
    simp [in_edge_key, edge_key, List.cons_prefix_cons] at hpre
  · rw [hk] at hpre
    simp [in_edge_key, edge_label_key, List.cons_prefix_cons] at hpre
  · rw [hk] at hpre
    simp [in_edge_key, out_edge_key, List.cons_prefix_cons] at hpre
  · have hEK : EKey s.edges (in_edge_key t eid) :=
      ⟨kv.2, by rw [← hk]; exact hmem⟩
    obtain ⟨hct, hceid, e, hg, hto, hid⟩ := hInv.inOk t eid hEK
    rw [hk] at hpre
    have htn : t = n := (in_pre_iff hn hct).mp hpre
    refine ⟨e, ?_, ?_, ?_⟩
    · rw [hk, htn, hid]
    · show cfGet s.edges (edge_key e.id) = some (StoredVal.edgeRec e)
      rw [hid]
      exact hg
    · rw [hto, htn]

theorem outEdges_char {s : Store} (hInv : Inv s) {n : String}
    (hn : cleanId n) (L : String) :
    ∃ es, get_out_edges s n L = Out.ok es ∧
      ∀ e : REdge, e ∈ es ↔
        edgeLive s e ∧ e.from_node = n ∧ e.label = L := by
  have hall : ∀ kv ∈ cfScan s.edges (out_edge_key n ""), ∃ e : REdge,
      get_edge s (String.mk (kv.1.drop (out_edge_key n "").length)) =
        Out.ok e := by
    intro kv hkv
    obtain ⟨e, hk, hl, -⟩ := scan_out_mem hInv hn hkv
    refine ⟨e, ?_⟩
    rw [hk, out_key_drop]
    exact get_edge_of_live hl
  obtain ⟨es, hes, hmem⟩ := collectEdges_ok s _ L _ hall
  refine ⟨es, hes, ?_⟩
  intro e
  rw [hmem e]
  constructor
  · rintro ⟨hlbl, kv, hkv, hget⟩
    obtain ⟨e', hk, hl', hfrom⟩ := scan_out_mem hInv hn hkv
    rw [hk, out_key_drop] at hget
    have he' := (get_edge_of_live hl').symm.trans hget
    injection he' with he'
    rw [← he']
    exact ⟨hl', hfrom, he' ▸ hlbl⟩
  · rintro ⟨hlive, hfrom, hlbl⟩
    obtain ⟨-, -, -, -, -, hEo, -, -⟩ := hInv.edgeRecOk _ _ (cfGet_mem hlive)
    rw [hfrom] at hEo
    obtain ⟨v, hv⟩ := hEo
    refine ⟨hlbl, (out_edge_key n e.id, v), ?_, ?_⟩
    · rw [mem_cfScan]
      exact ⟨hv, ⟨e.id.data, (out_key_decomp n e.id).symm⟩⟩
    · show get_edge s
        (String.mk ((out_edge_key n e.id).drop (out_edge_key n "").length)) =
          Out.ok e
      rw [out_key_drop]
      exact get_edge_of_live hlive

theorem inEdges_char {s : Store} (hInv : Inv s) {n : String}
    (hn : cleanId n) (L : String) :
    ∃ es, get_in_edges s n L = Out.ok es ∧
      ∀ e : REdge, e ∈ es ↔
        edgeLive s e ∧ e.to_node = n ∧ e.label = L := by
  have hall : ∀ kv ∈ cfScan s.edges (in_edge_key n ""), ∃ e : REdge,
      get_edge s (String.mk (kv.1.drop (in_edge_key n "").length)) =
        Out.ok e := by
    intro kv hkv
    obtain ⟨e, hk, hl, -⟩ := scan_in_mem hInv hn hkv
    refine ⟨e, ?_⟩
    rw [hk, in_key_drop]
    exact get_edge_of_live hl
  obtain ⟨es, hes, hmem⟩ := collectEdges_ok s _ L _ hall
  refine ⟨es, hes, ?_⟩
  intro e
  rw [hmem e]
  constructor
  · rintro ⟨hlbl, kv, hkv, hget⟩
    obtain ⟨e', hk, hl', hto⟩ := scan_in_mem hInv hn hkv
    rw [hk, in_key_drop] at hget
    have he' := (get_edge_of_live hl').symm.trans hget
    injection he' with he'
    rw [← he']
    exact ⟨hl', hto, he' ▸ hlbl⟩
  · rintro ⟨hlive, hto, hlbl⟩
    obtain ⟨-, -, -, -, -, -, hEi, -⟩ := hInv.edgeRecOk _ _ (cfGet_mem hlive)
    rw [hto] at hEi
    obtain ⟨v, hv⟩ := hEi
    refine ⟨hlbl, (in_edge_key n e.id, v), ?_, ?_⟩
    · rw [mem_cfScan]
      exact ⟨hv, ⟨e.id.data, (in_key_decomp n e.id).symm⟩⟩
    · show get_edge s
        (String.mk ((in_edge_key n e.id).drop (in_edge_key n "").length)) =
          Out.ok e
      rw [in_key_drop]
      exact get_edge_of_live hlive

theorem get_node_never_panics {s : Store} (hInv : Inv s) (x : String) :
    get_node s x ≠ Out.panic := by
  intro h
  unfold get_node at h
  rcases hg : cfGet s.nodes (node_key x) with _ | v <;> rw [hg] at h
  · cases h
  · rcases hInv.nodeEntry _ _ (cfGet_mem hg) with ⟨n, -, hv⟩ | ⟨lbl, nid, hk, -⟩
    · rw [hv] at h
      cases h
    · exact node_key_ne_label hk

theorem collectNodes_cons_eq {s : Store} {p : Key} {L : String}
    {far : REdge → String} {k : Key} {v : StoredVal} {rest : CF}
    {e0 : REdge} {ns : List RNode}
    (he0 : get_temp_edge s (String.mk (k.drop p.length)) = Out.ok e0)
    (hns : collectNodes s p L far rest = Out.ok ns) :
    collectNodes s p L far ((k, v) :: rest) =
      if e0.label = L then
        match get_node s (far e0) with
        | Out.ok n => Out.ok (n :: ns)
        | Out.err _ => Out.ok ns
        | Out.panic => Out.panic
      else Out.ok ns := by
  unfold collectNodes
  rw [he0, hns]

theorem collectNodes_ok (s : Store) (p : Key) (L : String)
    (far : REdge → String) (hnp : ∀ x, get_node s x ≠ Out.panic) :
    ∀ l : CF, (∀ kv ∈ l, ∃ e : REdge,
        get_temp_edge s (String.mk (kv.1.drop p.length)) = Out.ok e) →
    ∃ ns, collectNodes s p L far l = Out.ok ns ∧
      ∀ m : RNode, m ∈ ns ↔ ∃ kv ∈ l, ∃ e : REdge,
        get_temp_edge s (String.mk (kv.1.drop p.length)) = Out.ok e ∧
        e.label = L ∧ get_node s (far e) = Out.ok m := by
  intro l
  induction l with
  | nil =>
    refine fun _ => ⟨[], rfl, fun m =>
      ⟨fun h => absurd h (List.not_mem_nil m), ?_⟩⟩
    rintro ⟨kv, hkv, -⟩
    cases hkv
  | cons kv rest ih =>
    intro hall
    obtain ⟨k, v⟩ := kv
    obtain ⟨e0, he0⟩ := hall (k, v) (List.mem_cons_self _ _)
    obtain ⟨ns, hns, hmem⟩ := ih (fun kv h => hall kv (List.mem_cons_of_mem _ h))
    by_cases hL : e0.label = L
    · rcases hm0 : get_node s (far e0) with m0 | msg | _
      · refine ⟨m0 :: ns, ?_, ?_⟩
        · rw [collectNodes_cons_eq he0 hns, if_pos hL, hm0]
        · intro m
          constructor
          · intro hmem'
            rcases List.mem_cons.mp hmem' with rfl | hmem''
            · exact ⟨(k, v), List.mem_cons_self _ _, e0, he0, hL, hm0⟩
            · obtain ⟨kv', hkv', e', hg', hl', hn'⟩ := (hmem m).mp hmem''
              exact ⟨kv', List.mem_cons_of_mem _ hkv', e', hg', hl', hn'⟩
          · rintro ⟨kv', hkv', e', hg', hl', hn'⟩
            rcases List.mem_cons.mp hkv' with rfl | h'
            · rw [he0] at hg'
              injection hg' with hg'
              rw [← hg'] at hn'
              rw [hm0] at hn'
              injection hn' with hn'
              exact hn' ▸ List.mem_cons_self _ _
            · exact List.mem_cons_of_mem _
                ((hmem m).mpr ⟨kv', h', e', hg', hl', hn'⟩)
      · refine ⟨ns, ?_, ?_⟩
        · rw [collectNodes_cons_eq he0 hns, if_pos hL, hm0]
        · intro m
          rw [hmem m]
          constructor
          · rintro ⟨kv', hkv', e', hg', hl', hn'⟩
            exact ⟨kv', List.mem_cons_of_mem _ hkv', e', hg', hl', hn'⟩
          · rintro ⟨kv', hkv', e', hg', hl', hn'⟩
            rcases List.mem_cons.mp hkv' with rfl | h'
            · rw [he0] at hg'
              injection hg' with hg'
              rw [← hg'] at hn'
              rw [hm0] at hn'
              cases hn'
            · exact ⟨kv', h', e', hg', hl', hn'⟩
      · exact absurd hm0 (hnp (far e0))
    · refine ⟨ns, ?_, ?_⟩
      · rw [collectNodes_cons_eq he0 hns, if_neg hL]
      · intro m
        rw [hmem m]
        constructor
        · rintro ⟨kv', hkv', e', hg', hl', hn'⟩
          exact ⟨kv', List.mem_cons_of_mem _ hkv', e', hg', hl', hn'⟩
        · rintro ⟨kv', hkv', e', hg', hl', hn'⟩
          rcases List.mem_cons.mp hkv' with rfl | h'
          · rw [he0] at hg'
            injection hg' with hg'
            rw [← hg'] at hl'
            exact absurd hl' hL
          · exact ⟨kv', h', e', hg', hl', hn'⟩

theorem outNodes_char {s : Store} (hInv : Inv s) {n : String}
    (hn : cleanId n) (L : String) :
    ∃ ns, get_out_nodes s n L = Out.ok ns ∧
      ∀ m : RNode, m ∈ ns ↔ ∃ e : REdge, edgeLive s e ∧
        e.from_node = n ∧ e.label = L ∧ e.to_node = m.id ∧ nodeLive s m := by
  have hall : ∀ kv ∈ cfScan s.edges (out_edge_key n ""), ∃ e : REdge,
      get_temp_edge s (String.mk (kv.1.drop (out_edge_key n "").length)) =
        Out.ok e := by
    intro kv hkv
    obtain ⟨e, hk, hl, -⟩ := scan_out_mem hInv hn hkv
    refine ⟨e, ?_⟩
    rw [hk, out_key_drop]
    exact get_edge_of_live hl
  obtain ⟨ns, hns, hmem⟩ := collectNodes_ok s _ L REdge.to_node
    (get_node_never_panics hInv) _ hall
  refine ⟨ns, hns, ?_⟩
  intro m
  rw [hmem m]
  constructor
  · rintro ⟨kv, hkv, e', hg', hl', hn'⟩
    obtain ⟨e'', hk, hl'', hfrom⟩ := scan_out_mem hInv hn hkv
    rw [hk, out_key_drop] at hg'
    have he' := (get_edge_of_live hl'').symm.trans hg'
    injection he' with he'
    obtain ⟨hid, -, hlv⟩ := get_node_ok_clean hInv hn'
    exact ⟨e', he' ▸ hl'', he' ▸ hfrom, hl', hid, hlv⟩
  · rintro ⟨e, hlive, hfrom, hlbl, hto, hlv⟩
    obtain ⟨-, -, -, -, -, hEo, -, -⟩ := hInv.edgeRecOk _ _ (cfGet_mem hlive)
    rw [hfrom] at hEo
    obtain ⟨v, hv⟩ := hEo
    refine ⟨(out_edge_key n e.id, v), ?_, e, ?_, hlbl, ?_⟩
    · rw [mem_cfScan]
      exact ⟨hv, ⟨e.id.data, (out_key_decomp n e.id).symm⟩⟩
    · show get_temp_edge s
        (String.mk ((out_edge_key n e.id).drop (out_edge_key n "").length)) =
          Out.ok e
      rw [out_key_drop]
      exact get_edge_of_live hlive
    · rw [hto]
      exact get_node_of_live hlv

theorem inNodes_char {s : Store} (hInv : Inv s) {n : String}
    (hn : cleanId n) (L : String) :
    ∃ ns, get_in_nodes s n L = Out.ok ns ∧
      ∀ m : RNode, m ∈ ns ↔ ∃ e : REdge, edgeLive s e ∧
        e.to_node = n ∧ e.label = L ∧ e.from_node = m.id ∧ nodeLive s m := by
  have hall : ∀ kv ∈ cfScan s.edges (in_edge_key n ""), ∃ e : REdge,
      get_temp_edge s (String.mk (kv.1.drop (in_edge_key n "").length)) =
        Out.ok e := by
    intro kv hkv
    obtain ⟨e, hk, hl, -⟩ := scan_in_mem hInv hn hkv
    refine ⟨e, ?_⟩
    rw [hk, in_key_drop]
    exact get_edge_of_live hl
  obtain ⟨ns, hns, hmem⟩ := collectNodes_ok s _ L REdge.from_node
    (get_node_never_panics hInv) _ hall
  refine ⟨ns, hns, ?_⟩
  intro m
  rw [hmem m]
  constructor
  · rintro ⟨kv, hkv, e', hg', hl', hn'⟩
    obtain ⟨e'', hk, hl'', hto⟩ := scan_in_mem hInv hn hkv
    rw [hk, in_key_drop] at hg'
    have he' := (get_edge_of_live hl'').symm.trans hg'
    injection he' with he'
    obtain ⟨hid, -, hlv⟩ := get_node_ok_clean hInv hn'
    exact ⟨e', he' ▸ hl'', he' ▸ hto, hl', hid, hlv⟩
  · rintro ⟨e, hlive, hto, hlbl, hfrom, hlv⟩
    obtain ⟨-, -, -, -, -, -, hEi, -⟩ := hInv.edgeRecOk _ _ (cfGet_mem hlive)
    rw [hto] at hEi
    obtain ⟨v, hv⟩ := hEi
    refine ⟨(in_edge_key n e.id, v), ?_, e, ?_, hlbl, ?_⟩
    · rw [mem_cfScan]
      exact ⟨hv, ⟨e.id.data, (in_key_decomp n e.id).symm⟩⟩
    · show get_temp_edge s
        (String.mk ((in_edge_key n e.id).drop (in_edge_key n "").length)) =
          Out.ok e
      rw [in_key_drop]
      exact get_edge_of_live hlive
    · rw [hfrom]
      exact get_node_of_live hlv

/-! ## Reachability of the concrete stores -/

theorem reach_storeA : Reach storeA :=
  Reach.cnode Store.empty "A" "person" [] Reach.empty (by decide) rfl

theorem reach_storeAB : Reach storeAB :=
  Reach.cnode storeA "B" "person" [] reach_storeA (by decide) rfl

theorem reach_storeABE : Reach storeABE :=
  Reach.cedge storeAB "E" "knows" "A" "B" [] eKnows storeABE
    reach_storeAB (by decide) rfl rfl

theorem reach_storeAfterDropA : Reach storeAfterDropA :=
  Reach.dnode storeABE "A" storeAfterDropA reach_storeABE rfl

/-! ## C3 -/

/-- **C3** (confirmed).  In any store the engine can build, and for any
node id `n` (engine ids are colon-free) and label `L`:
`get_out_edges(n, L)` returns `Ok` with exactly the live edges `e`
having `e.from_node = n` and `e.label = L` (membership
characterization, no order guaranteed), and symmetrically
`get_in_edges(n, L)` returns exactly the live edges with
`e.to_node = n` and `e.label = L`. -/
theorem get_out_in_edges_spec (s : Store) (n L : String)
    (hs : Reach s) (hn : cleanId n) :
    (∃ es, get_out_edges s n L = Out.ok es ∧
      ∀ e : REdge, e ∈ es ↔
        edgeLive s e ∧ e.from_node = n ∧ e.label = L) ∧
    (∃ es, get_in_edges s n L = Out.ok es ∧
      ∀ e : REdge, e ∈ es ↔
        edgeLive s e ∧ e.to_node = n ∧ e.label = L) :=
  ⟨outEdges_char (reach_inv hs) hn L, inEdges_char (reach_inv hs) hn L⟩

/-- Witness for C3: the concrete two-node, one-edge store. -/
theorem get_out_in_edges_spec_witness :
    (∃ es, get_out_edges storeABE "A" "knows" = Out.ok es ∧
      ∀ e : REdge, e ∈ es ↔
        edgeLive storeABE e ∧ e.from_node = "A" ∧ e.label = "knows") ∧
    (∃ es, get_in_edges storeABE "A" "knows" = Out.ok es ∧
      ∀ e : REdge, e ∈ es ↔
        edgeLive storeABE e ∧ e.to_node = "A" ∧ e.label = "knows") :=
  get_out_in_edges_spec storeABE "A" "knows" reach_storeABE (by decide)

/-! ## C5 -/

/-- **C5** (counterexample).  The claim says dropping an edge or a node
removes the corresponding label-index entries.  It does not: after
`drop_edge "E"` the edge record is gone but the `el:knows:E` entry is
still stored, and after `drop_node "A"` the node record is gone but the
`nl:person:A` entry is still stored. -/
theorem drop_leaves_label_entries :
    drop_edge storeABE "E" = Out.ok storeAfterDropE ∧
    get_edge storeAfterDropE "E" = Out.err "Item not found!" ∧
    cfGet storeAfterDropE.edges (edge_label_key "knows" "E") =
      some StoredVal.emptyVal ∧
    drop_node storeABE "A" = Out.ok storeAfterDropA ∧
    get_node storeAfterDropA "A" = Out.err "Item not found!" ∧
    cfGet storeAfterDropA.nodes (node_label_key "person" "A") =
      some StoredVal.emptyVal :=
  ⟨rfl, rfl, rfl, rfl, rfl, rfl⟩

/-- **C5** (amended).  Label indexes are exhaustive for live entities:
in any store the engine can build, every live node has its `nl:` entry
and every live edge has its `el:` entry (stored with the empty value).
However `drop_node` and `drop_edge` do not delete label-index entries,
so entries of dropped entities persist: the containment is one-sided. -/
theorem label_index_exhaustive (s : Store) (hs : Reach s) :
    (∀ n : RNode, nodeLive s n →
      cfGet s.nodes (node_label_key n.label n.id) = some StoredVal.emptyVal) ∧
    (∀ e : REdge, edgeLive s e →
      cfGet s.edges (edge_label_key e.label e.id) = some StoredVal.emptyVal) := by
  have hInv := reach_inv hs
  constructor
  · intro n hl
    obtain ⟨-, -, -, hE⟩ := hInv.nodeRecOk _ _ (cfGet_mem hl)
    obtain ⟨v, hv⟩ := EKey_cfGet hE
    rcases hInv.nodeEntry _ _ (cfGet_mem hv) with ⟨n', hk, -⟩ |
      ⟨l', i', -, hval⟩
    · exact absurd hk.symm node_key_ne_label
    · rw [hval] at hv
      exact hv
  · intro e hl
    obtain ⟨-, -, -, -, -, -, -, hE⟩ := hInv.edgeRecOk _ _ (cfGet_mem hl)
    obtain ⟨v, hv⟩ := EKey_cfGet hE
    rcases hInv.edgeEntry _ _ (cfGet_mem hv) with ⟨e', hk, -⟩ |
      ⟨l', i', -, hval⟩ | ⟨f', i', hk, -⟩ | ⟨t', i', hk, -⟩
    · exact absurd hk.symm edge_key_ne_label
    · rw [hval] at hv
      exact hv
    · exact absurd hk label_key_ne_out
    · exact absurd hk label_key_ne_in

/-- Witness for the amended C5: the live node `A` and live edge `E` of
the concrete store have their label entries. -/
theorem label_index_exhaustive_witness :
    cfGet storeABE.nodes (node_label_key "person" "A") =
      some StoredVal.emptyVal ∧
    cfGet storeABE.edges (edge_label_key "knows" "E") =
      some StoredVal.emptyVal :=
  ⟨(label_index_exhaustive storeABE reach_storeABE).1 ⟨"A", "person", []⟩ rfl,
   (label_index_exhaustive storeABE reach_storeABE).2 eKnows rfl⟩

/-! ## C10 -/

/-- **C10** (confirmed).  In any store the engine can build,
`get_out_nodes` and `get_in_nodes` return `Ok`, and a node appears in
the result exactly when some live label-matching incident edge
references it as the far endpoint *and its record is present*: an edge
whose far-endpoint node record is absent is silently skipped and never
produces an error. -/
theorem get_nodes_skip_missing_endpoints (s : Store) (n L : String)
    (hs : Reach s) (hn : cleanId n) :
    (∃ ns, get_out_nodes s n L = Out.ok ns ∧
      ∀ m : RNode, m ∈ ns ↔ ∃ e : REdge, edgeLive s e ∧
        e.from_node = n ∧ e.label = L ∧ e.to_node = m.id ∧ nodeLive s m) ∧
    (∃ ns, get_in_nodes s n L = Out.ok ns ∧
      ∀ m : RNode, m ∈ ns ↔ ∃ e : REdge, edgeLive s e ∧
        e.to_node = n ∧ e.label = L ∧ e.from_node = m.id ∧ nodeLive s m) :=
  ⟨outNodes_char (reach_inv hs) hn L, inNodes_char (reach_inv hs) hn L⟩

/-- Witness for C10: the reachable store in which node `A` was dropped
but its outgoing edge `E` survived; `get_in_nodes(B, "knows")` meets a
dangling `from` endpoint, returns `Ok` and omits it. -/
theorem get_nodes_skip_missing_endpoints_witness :
    ((∃ ns, get_out_nodes storeAfterDropA "B" "knows" = Out.ok ns ∧
      ∀ m : RNode, m ∈ ns ↔ ∃ e : REdge, edgeLive storeAfterDropA e ∧
        e.from_node = "B" ∧ e.label = "knows" ∧ e.to_node = m.id ∧
        nodeLive storeAfterDropA m) ∧
    (∃ ns, get_in_nodes storeAfterDropA "B" "knows" = Out.ok ns ∧
      ∀ m : RNode, m ∈ ns ↔ ∃ e : REdge, edgeLive storeAfterDropA e ∧
        e.to_node = "B" ∧ e.label = "knows" ∧ e.from_node = m.id ∧
        nodeLive storeAfterDropA m)) ∧
    get_edge storeAfterDropA "E" = Out.ok eKnows ∧
    get_node storeAfterDropA "A" = Out.err "Item not found!" ∧
    get_in_nodes storeAfterDropA "B" "knows" = Out.ok [] :=
  ⟨get_nodes_skip_missing_endpoints storeAfterDropA "B" "knows"
    reach_storeAfterDropA (by decide), rfl, rfl, rfl⟩

/-! ## C2 -/

/-- **C2** (confirmed).  `create_edge` first checks both endpoint node
records (evaluating `get_node(from)` first, short-circuiting): if the
first lookup misses, or it succeeds and the second misses, the call
returns the typed error and the store is completely unchanged.  When
both endpoints exist it returns the edge whose `from_node`/`to_node`
equal the given ids and, in one write batch, the edges family gains
exactly four entries — the edge record, the edge-label entry, the
outgoing adjacency entry keyed by `from`, and the incoming adjacency
entry keyed by `to` — every other key of every family being untouched. -/
theorem create_edge_spec (s : Store) (id label f t : String) (props : Props) :
    (((∃ m, get_node s f = Out.err m) ∨
      ((∃ nf, get_node s f = Out.ok nf) ∧ ∃ m, get_node s t = Out.err m)) →
      create_edge s id label f t props =
        (Out.err "One or both nodes do not exist", s)) ∧
    ((∃ nf, get_node s f = Out.ok nf) → (∃ nt, get_node s t = Out.ok nt) →
      ∃ s', create_edge s id label f t props =
          (Out.ok ⟨id, label, f, t, props⟩, s') ∧
        s'.nodes = s.nodes ∧ s'.indices = s.indices ∧
        cfGet s'.edges (edge_key id) =
          some (StoredVal.edgeRec ⟨id, label, f, t, props⟩) ∧
        cfGet s'.edges (edge_label_key label id) = some StoredVal.emptyVal ∧
        cfGet s'.edges (out_edge_key f id) = some StoredVal.emptyVal ∧
        cfGet s'.edges (in_edge_key t id) = some StoredVal.emptyVal ∧
        (∀ k, EKey s'.edges k ↔ EKey s.edges k ∨ k = edge_key id ∨
          k = edge_label_key label id ∨ k = out_edge_key f id ∨
          k = in_edge_key t id) ∧
        (∀ k, k ≠ edge_key id → k ≠ edge_label_key label id →
          k ≠ out_edge_key f id → k ≠ in_edge_key t id →
          cfGet s'.edges k = cfGet s.edges k)) := by
  constructor
  · rintro (⟨m, hf⟩ | ⟨⟨nf, hf⟩, ⟨m, ht⟩⟩)
    · unfold create_edge
      rw [hf]
    · unfold create_edge
      rw [hf, ht]
  · rintro ⟨nf, hf⟩ ⟨nt, ht⟩
    refine ⟨⟨s.nodes,
      cfPut (cfPut (cfPut (cfPut s.edges
        (edge_key id) (StoredVal.edgeRec ⟨id, label, f, t, props⟩))
        (edge_label_key label id) StoredVal.emptyVal)
        (out_edge_key f id) StoredVal.emptyVal)
        (in_edge_key t id) StoredVal.emptyVal,
      s.indices⟩, ?_, rfl, rfl, ?_, ?_, ?_, ?_, ?_, ?_⟩
    · unfold create_edge
      rw [hf, ht]
    · rw [cfGet_put_ne edge_key_ne_in, cfGet_put_ne edge_key_ne_out,
        cfGet_put_ne edge_key_ne_label, cfGet_put_self]
    · rw [cfGet_put_ne label_key_ne_in, cfGet_put_ne label_key_ne_out,
        cfGet_put_self]
    · rw [cfGet_put_ne out_ne_in, cfGet_put_self]
    · rw [cfGet_put_self]
    · intro k
      rw [EKey_cfPut, EKey_cfPut, EKey_cfPut, EKey_cfPut]
      tauto
    · intro k h1 h2 h3 h4
      rw [cfGet_put_ne h4, cfGet_put_ne h3, cfGet_put_ne h2, cfGet_put_ne h1]

/-- Witness for C2: the error path with a missing `to` endpoint leaves
the two-node store untouched; the success path creates the edge `E`. -/
theorem create_edge_spec_witness :
    create_edge storeAB "E" "knows" "A" "Z" [] =
      (Out.err "One or both nodes do not exist", storeAB) ∧
    (∃ s', create_edge storeAB "E" "knows" "A" "B" [] =
        (Out.ok ⟨"E", "knows", "A", "B", []⟩, s') ∧
      s'.nodes = storeAB.nodes ∧ s'.indices = storeAB.indices ∧
      cfGet s'.edges (edge_key "E") =
        some (StoredVal.edgeRec ⟨"E", "knows", "A", "B", []⟩) ∧
      cfGet s'.edges (edge_label_key "knows" "E") = some StoredVal.emptyVal ∧
      cfGet s'.edges (out_edge_key "A" "E") = some StoredVal.emptyVal ∧
      cfGet s'.edges (in_edge_key "B" "E") = some StoredVal.emptyVal ∧
      (∀ k, EKey s'.edges k ↔ EKey storeAB.edges k ∨ k = edge_key "E" ∨
        k = edge_label_key "knows" "E" ∨ k = out_edge_key "A" "E" ∨
        k = in_edge_key "B" "E") ∧
      (∀ k, k ≠ edge_key "E" → k ≠ edge_label_key "knows" "E" →
        k ≠ out_edge_key "A" "E" → k ≠ in_edge_key "B" "E" →
        cfGet s'.edges k = cfGet storeAB.edges k)) :=
  ⟨(create_edge_spec storeAB "E" "knows" "A" "Z" []).1
    (Or.inr ⟨⟨⟨"A", "person", []⟩, rfl⟩, ⟨"Item not found!", rfl⟩⟩),
   (create_edge_spec storeAB "E" "knows" "A" "B" []).2
    ⟨⟨"A", "person", []⟩, rfl⟩ ⟨⟨"B", "person", []⟩, rfl⟩⟩

/-! ## C4 -/

theorem expandCells_ok {α : Type} (step : RNode → Out (List α))
    (mk : List α → TraversalValue) :
    ∀ ns : List RNode, (∀ n ∈ ns, ∃ l, step n = Out.ok l) →
    ∃ cells, expandCells step mk ns = Out.ok cells ∧
      List.Forall₂ (fun n c => ∃ l, step n = Out.ok l ∧ c = mk l) ns cells := by
  intro ns
  induction ns with
  | nil => exact fun _ => ⟨[], rfl, List.Forall₂.nil⟩
  | cons n0 rest ih =>
    intro hall
    obtain ⟨l0, h0⟩ := hall n0 (List.mem_cons_self _ _)
    obtain ⟨cells, hc, hf⟩ := ih (fun n h => hall n (List.mem_cons_of_mem _ h))
    refine ⟨mk l0 :: cells, ?_, List.Forall₂.cons ⟨l0, h0, rfl⟩ hf⟩
    unfold expandCells
    rw [h0, hc]

theorem chainedStep_first {α : Type} {step : RNode → Out (List α)}
    {mk : List α → TraversalValue} {b : TraversalBuilder}
    {ns : List RNode} {rest : List TraversalValue}
    (hb : b.current_step = TraversalValue.NodeArray ns :: rest)
    (hok : ∀ n ∈ ns, ∃ l, step n = Out.ok l) :
    ∃ cells, chainedStep step mk b = Out.ok ⟨b.vars, cells⟩ ∧
      List.Forall₂ (fun n c => ∃ l, step n = Out.ok l ∧ c = mk l) ns cells := by
  obtain ⟨cells, hc, hf⟩ := expandCells_ok step mk ns hok
  refine ⟨cells, ?_, hf⟩
  have hchk : check_is_valid_node_traversal b = Out.ok () := by
    unfold check_is_valid_node_traversal
    rw [hb]
  unfold chainedStep
  rw [hchk, hb]
  show (match expandCells step mk ns with
        | Out.ok cells => Out.ok (⟨b.vars, cells⟩ : TraversalBuilder)
        | _ => Out.panic) = Out.ok (⟨b.vars, cells⟩ : TraversalBuilder)
  rw [hc]

/-- **C4** (counterexample).  The claim says a chained `out` expands
every node in every cell of the frontier, producing one cell per node.
The code inspects only `current_step[0]`: on the two-cell frontier
`[[B], [A]]` over the store `A ─knows(E)→ B`, `out("knows")` returns
the single cell `[[]]` (the expansion of `B` alone), although `A`
sits in the second cell and its expansion `get_out_nodes(A, "knows")`
is the non-empty `[B]` — so `A` was not expanded and there is one cell,
not one per node. -/
theorem out_expands_only_first_cell :
    outStep storeABE
      ⟨[], [TraversalValue.NodeArray [⟨"B", "person", []⟩],
            TraversalValue.NodeArray [⟨"A", "person", []⟩]]⟩ "knows" =
      Out.ok ⟨[], [TraversalValue.NodeArray []]⟩ ∧
    get_out_nodes storeABE "A" "knows" = Out.ok [⟨"B", "person", []⟩] :=
  ⟨rfl, rfl⟩

/-- **C4** (amended).  When the frontier's first cell is a node list,
each chained step (`out`, `out_e`, `in_`, `in_e`) replaces the whole
frontier by one cell per node *of that first cell only* (per-source
cells, not flattened), dropping every other cell; cells beyond the
first are never expanded. -/
theorem chained_steps_expand_first_cell (s : Store) (L : String)
    (b : TraversalBuilder) (ns : List RNode) (rest : List TraversalValue)
    (hs : Reach s) (hb : b.current_step = TraversalValue.NodeArray ns :: rest)
    (hclean : ∀ n ∈ ns, cleanId n.id) :
    (∃ cells, outStep s b L = Out.ok ⟨b.vars, cells⟩ ∧
      List.Forall₂ (fun n c => ∃ l, get_out_nodes s n.id L = Out.ok l ∧
        c = TraversalValue.NodeArray l) ns cells) ∧
    (∃ cells, outEStep s b L = Out.ok ⟨b.vars, cells⟩ ∧
      List.Forall₂ (fun n c => ∃ l, get_out_edges s n.id L = Out.ok l ∧
        c = TraversalValue.EdgeArray l) ns cells) ∧
    (∃ cells, inStep s b L = Out.ok ⟨b.vars, cells⟩ ∧
      List.Forall₂ (fun n c => ∃ l, get_in_nodes s n.id L = Out.ok l ∧
        c = TraversalValue.NodeArray l) ns cells) ∧
    (∃ cells, inEStep s b L = Out.ok ⟨b.vars, cells⟩ ∧
      List.Forall₂ (fun n c => ∃ l, get_in_edges s n.id L = Out.ok l ∧
        c = TraversalValue.EdgeArray l) ns cells) := by
  have hInv := reach_inv hs
  refine ⟨?_, ?_, ?_, ?_⟩
  · exact chainedStep_first hb (fun n hn => by
      obtain ⟨l, hl, -⟩ := outNodes_char hInv (hclean n hn) L
      exact ⟨l, hl⟩)
  · exact chainedStep_first hb (fun n hn => by
      obtain ⟨l, hl, -⟩ := outEdges_char hInv (hclean n hn) L
      exact ⟨l, hl⟩)
  · exact chainedStep_first hb (fun n hn => by
      obtain ⟨l, hl, -⟩ := inNodes_char hInv (hclean n hn) L
      exact ⟨l, hl⟩)
  · exact chainedStep_first hb (fun n hn => by
      obtain ⟨l, hl, -⟩ := inEdges_char hInv (hclean n hn) L
      exact ⟨l, hl⟩)

/-- Witness for the amended C4: the two-cell frontier `[[A], [B]]`. -/
theorem chained_steps_expand_first_cell_witness :
    (∃ cells, outStep storeABE
        ⟨[], [TraversalValue.NodeArray [⟨"A", "person", []⟩],
              TraversalValue.NodeArray [⟨"B", "person", []⟩]]⟩ "knows" =
        Out.ok ⟨[], cells⟩ ∧
      List.Forall₂ (fun (n : RNode) c => ∃ l,
        get_out_nodes storeABE n.id "knows" = Out.ok l ∧
        c = TraversalValue.NodeArray l) [⟨"A", "person", []⟩] cells) ∧
    (∃ cells, outEStep storeABE
        ⟨[], [TraversalValue.NodeArray [⟨"A", "person", []⟩],
              TraversalValue.NodeArray [⟨"B", "person", []⟩]]⟩ "knows" =
        Out.ok ⟨[], cells⟩ ∧
      List.Forall₂ (fun (n : RNode) c => ∃ l,
        get_out_edges storeABE n.id "knows" = Out.ok l ∧
        c = TraversalValue.EdgeArray l) [⟨"A", "person", []⟩] cells) ∧
    (∃ cells, inStep storeABE
        ⟨[], [TraversalValue.NodeArray [⟨"A", "person", []⟩],
              TraversalValue.NodeArray [⟨"B", "person", []⟩]]⟩ "knows" =
        Out.ok ⟨[], cells⟩ ∧
      List.Forall₂ (fun (n : RNode) c => ∃ l,
        get_in_nodes storeABE n.id "knows" = Out.ok l ∧
        c = TraversalValue.NodeArray l) [⟨"A", "person", []⟩] cells) ∧
    (∃ cells, inEStep storeABE
        ⟨[], [TraversalValue.NodeArray [⟨"A", "person", []⟩],
              TraversalValue.NodeArray [⟨"B", "person", []⟩]]⟩ "knows" =
        Out.ok ⟨[], cells⟩ ∧
      List.Forall₂ (fun (n : RNode) c => ∃ l,
        get_in_edges storeABE n.id "knows" = Out.ok l ∧
        c = TraversalValue.EdgeArray l) [⟨"A", "person", []⟩] cells) :=
  chained_steps_expand_first_cell storeABE "knows"
    ⟨[], [TraversalValue.NodeArray [⟨"A", "person", []⟩],
          TraversalValue.NodeArray [⟨"B", "person", []⟩]]⟩
    [⟨"A", "person", []⟩] [TraversalValue.NodeArray [⟨"B", "person", []⟩]]
    reach_storeABE rfl
    (fun n hn => by
      rw [List.mem_singleton] at hn
      subst hn
      decide)

/-! ## Serialization round-trip lemmas (C7) -/

theorem readBytes_append (xs rest : List Nat) :
    readBytes xs.length (xs ++ rest) = some (xs, rest) := by
  induction xs with
  | nil => rfl
  | cons b bs ih =>
    show readBytes (bs.length + 1) (b :: (bs ++ rest)) = _
    unfold readBytes
    rw [ih]

theorem length_bytesOfNatLE (c v : Nat) : (bytesOfNatLE c v).length = c := by
  induction c generalizing v with
  | zero => rfl
  | succ c ih =>
    show (v % 256 :: bytesOfNatLE c (v / 256)).length = c + 1
    rw [List.length_cons, ih]

theorem natOfBytes_bytesOfNat (c v : Nat) :
    natOfBytesLE (bytesOfNatLE c v) = v % 256 ^ c := by
  induction c generalizing v with
  | zero => simp [bytesOfNatLE, natOfBytesLE, Nat.mod_one]
  | succ c ih =>
    show natOfBytesLE (v % 256 :: bytesOfNatLE c (v / 256)) = v % 256 ^ (c + 1)
    unfold natOfBytesLE
    rw [ih, Nat.mod_eq_of_lt (Nat.mod_lt v (by norm_num))]
    rw [pow_succ, mul_comm (256 ^ c) 256, Nat.mod_mul]

theorem natOfBytes_small {c v : Nat} (h : v < 256 ^ c) :
    natOfBytesLE (bytesOfNatLE c v) = v := by
  rw [natOfBytes_bytesOfNat]
  exact Nat.mod_eq_of_lt h

theorem readBytes_chunk (c v : Nat) (X : List Nat) :
    readBytes c (bytesOfNatLE c v ++ X) = some (bytesOfNatLE c v, X) := by
  have h := readBytes_append (bytesOfNatLE c v) X
  rwa [length_bytesOfNatLE] at h

theorem pow256_8 : (256 : Nat) ^ 8 = 2 ^ 64 := by norm_num

theorem pow256_4 : (256 : Nat) ^ 4 = 2 ^ 32 := by norm_num

theorem vdepth_pos (v : RValue) : 1 ≤ vdepth v := by
  cases v <;> simp [vdepth]

theorem vdepth_le_list {v : RValue} : ∀ {vs : List RValue}, v ∈ vs →
    vdepth v ≤ vdepthList vs := by
  intro vs
  induction vs with
  | nil => intro h; cases h
  | cons w ws ih =>
    intro h
    rcases List.mem_cons.mp h with rfl | h'
    · exact le_max_left _ _
    · exact le_trans (ih h') (le_max_right _ _)

theorem wfList_mem {v : RValue} : ∀ {vs : List RValue}, wfList vs → v ∈ vs →
    wfValue v := by
  intro vs
  induction vs with
  | nil => intro _ h; cases h
  | cons w ws ih =>
    intro hwf h
    rcases List.mem_cons.mp h with rfl | h'
    · exact hwf.1
    · exact ih hwf.2 h'

theorem deserLoop_sound (fuel : Nat) :
    ∀ (vs : List RValue) (rest : List Nat),
    (∀ v ∈ vs, ∀ r : List Nat,
      deserValue fuel (serializeValue v ++ r) = some (v, r)) →
    deserLoop (fun b => deserValue fuel b) vs.length
      (serializeList vs ++ rest) = some (vs, rest) := by
  intro vs
  induction vs with
  | nil => intro rest _; rfl
  | cons v vs ih =>
    intro rest hall
    show deserLoop (fun b => deserValue fuel b) (vs.length + 1)
      ((serializeValue v ++ serializeList vs) ++ rest) = _
    unfold deserLoop
    rw [List.append_assoc,
      hall v (List.mem_cons_self _ _) (serializeList vs ++ rest)]
    show (match deserLoop (fun b => deserValue fuel b) vs.length
        (serializeList vs ++ rest) with
      | none => none
      | some (vs2, r2) => some (v :: vs2, r2)) = some (v :: vs, rest)
    rw [ih rest (fun w hw r => hall w (List.mem_cons_of_mem _ hw) r)]

theorem deserValue_serializeValue : ∀ (fuel : Nat) (v : RValue)
    (rest : List Nat), wfValue v → vdepth v ≤ fuel →
    deserValue fuel (serializeValue v ++ rest) = some (v, rest) := by
  intro fuel
  induction fuel with
  | zero =>
    intro v rest _ hd
    exact absurd (le_trans (vdepth_pos v) hd) (by norm_num)
  | succ fuel ih =>
    intro v rest hwf hd
    cases v with
    | str bytes =>
      have h2 : natOfBytesLE (bytesOfNatLE 8 bytes.length) = bytes.length :=
        natOfBytes_small (by rw [pow256_8]; exact hwf.1)
      show deserValue (fuel + 1)
        ((bytesOfNatLE 4 0 ++ bytesOfNatLE 8 bytes.length ++ bytes) ++
          rest) = _
      simp only [List.append_assoc]
      unfold deserValue
      simp only [readBytes_chunk,
        natOfBytes_small (show (0 : Nat) < 256 ^ 4 by norm_num), h2,
        readBytes_append]
    | float bits =>
      have h2 : natOfBytesLE (bytesOfNatLE 8 bits) = bits :=
        natOfBytes_small (by rw [pow256_8]; exact hwf)
      show deserValue (fuel + 1)
        ((bytesOfNatLE 4 1 ++ bytesOfNatLE 8 bits) ++ rest) = _
      simp only [List.append_assoc]
      unfold deserValue
      simp only [readBytes_chunk,
        natOfBytes_small (show (1 : Nat) < 256 ^ 4 by norm_num), h2]
    | int bits =>
      have h2 : natOfBytesLE (bytesOfNatLE 4 bits) = bits :=
        natOfBytes_small (by rw [pow256_4]; exact hwf)
      show deserValue (fuel + 1)
        ((bytesOfNatLE 4 2 ++ bytesOfNatLE 4 bits) ++ rest) = _
      simp only [List.append_assoc]
      unfold deserValue
      simp only [readBytes_chunk,
        natOfBytes_small (show (2 : Nat) < 256 ^ 4 by norm_num), h2]
    | bool b =>
      cases b
      · show deserValue (fuel + 1) ((bytesOfNatLE 4 3 ++ [0]) ++ rest) = _
        simp only [List.append_assoc, List.singleton_append]
        unfold deserValue
        simp only [readBytes_chunk,
          natOfBytes_small (show (3 : Nat) < 256 ^ 4 by norm_num)]
      · show deserValue (fuel + 1) ((bytesOfNatLE 4 3 ++ [1]) ++ rest) = _
        simp only [List.append_assoc, List.singleton_append]
        unfold deserValue
        simp only [readBytes_chunk,
          natOfBytes_small (show (3 : Nat) < 256 ^ 4 by norm_num)]
    | arr vs =>
      have h2 : natOfBytesLE (bytesOfNatLE 8 vs.length) = vs.length :=
        natOfBytes_small (by rw [pow256_8]; exact hwf.1)
      have hLoop := deserLoop_sound fuel vs rest (fun w hw r => ih w r
        (wfList_mem hwf.2 hw)
        (le_trans (vdepth_le_list hw)
          (by have hvd : vdepthList vs + 1 ≤ fuel + 1 := hd; omega)))
      show deserValue (fuel + 1)
        ((bytesOfNatLE 4 4 ++ bytesOfNatLE 8 vs.length ++ serializeList vs) ++
          rest) = _
      simp only [List.append_assoc]
      unfold deserValue
      simp only [readBytes_chunk,
        natOfBytes_small (show (4 : Nat) < 256 ^ 4 by norm_num), h2, hLoop]
    | null =>
      show deserValue (fuel + 1) (bytesOfNatLE 4 5 ++ rest) = _
      unfold deserValue
      simp only [readBytes_chunk,
        natOfBytes_small (show (5 : Nat) < 256 ^ 4 by norm_num)]

mutual

theorem valueEq_refl : ∀ v : RValue, noNaN v → valueEq v v = true
  | RValue.str a, _ => by simp [valueEq]
  | RValue.float b, h => by
    have hb : isNaN64 b = false := h
    simp [valueEq, f64Eq, hb]
  | RValue.int a, _ => by simp [valueEq]
  | RValue.bool a, _ => by simp [valueEq]
  | RValue.arr vs, h => by
    have hl : noNaNList vs := h
    simp [valueEq, valueListEq_refl vs hl]
  | RValue.null, _ => by simp [valueEq]

theorem valueListEq_refl : ∀ vs : List RValue, noNaNList vs →
    valueListEq vs vs = true
  | [], _ => rfl
  | v :: vs, h => by
    simp [valueListEq, valueEq_refl v h.1, valueListEq_refl vs h.2]

end

/-! ## C7 -/

/-- **C7** (counterexample).  The claim says deserialization of the
serialization of any `Value`, every 64-bit float included, is equal to
the original under the type's structural equality (the derived
`PartialEq`).  For the quiet-NaN bit pattern `0x7FF8000000000000` the
round trip reproduces the value bit-for-bit, but the derived equality
compares `Float` payloads with IEEE `f64` equality, under which NaN is
not equal to itself — so no value equal to the original is obtained. -/
theorem float_nan_breaks_roundtrip :
    deserValue 1 (serializeValue (RValue.float 9221120237041090560)) =
      some (RValue.float 9221120237041090560, []) ∧
    valueEq (RValue.float 9221120237041090560)
      (RValue.float 9221120237041090560) = false :=
  ⟨rfl, rfl⟩

/-- **C7** (amended).  For every well-formed value (payload ranges of
the Rust types) and any fuel at least the value's nesting depth,
deserializing the serialization yields the value back bit-identically
(with the remaining input untouched); the derived structural equality
then relates the result to the original whenever the value contains no
NaN float — NaN floats round-trip bit-identically but are unequal to
themselves under the derived `PartialEq`. -/
theorem value_roundtrip (v : RValue) (rest : List Nat) (fuel : Nat)
    (hwf : wfValue v) (hfuel : vdepth v ≤ fuel) :
    deserValue fuel (serializeValue v ++ rest) = some (v, rest) ∧
    (noNaN v → valueEq v v = true) :=
  ⟨deserValue_serializeValue fuel v rest hwf hfuel,
   fun h => valueEq_refl v h⟩

/-- Witness for the amended C7: a nested array value. -/
theorem value_roundtrip_witness :
    deserValue 2 (serializeValue (RValue.arr
      [RValue.str [104, 105], RValue.int 7, RValue.null]) ++ [9]) =
      some (RValue.arr [RValue.str [104, 105], RValue.int 7, RValue.null],
        [9]) ∧
    (noNaN (RValue.arr [RValue.str [104, 105], RValue.int 7, RValue.null]) →
      valueEq (RValue.arr [RValue.str [104, 105], RValue.int 7, RValue.null])
        (RValue.arr [RValue.str [104, 105], RValue.int 7, RValue.null]) =
        true) :=
  value_roundtrip (RValue.arr [RValue.str [104, 105], RValue.int 7,
    RValue.null]) [9] 2
    ⟨by norm_num, ⟨by norm_num, by decide⟩, (by norm_num : (7:Nat) < 2 ^ 32),
      trivial, trivial⟩
    (by decide)

/-! ## C1 -/

/-- **C1** (code bug).  The claim says that after `drop_node(p1)`
succeeds every edge incident to `p1` is deleted: `get_edge` of the
edge's id returns NotFound and `get_in_edges(p2.id, "knows")` is empty.
The code instead scans the NODES column family for the `o:` adjacency
prefix (which lives in the edges column family), so outgoing edges are
never found: in the concrete scenario `A ─knows(E)→ B`, `drop_node "A"`
succeeds, deletes only the node record, and afterwards `get_edge "E"`
still returns the edge and `get_in_edges "B" "knows"` still returns
it.  This theorem evaluates the model at that failing input. -/
theorem drop_node_leaves_outgoing_edge :
    (create_edge storeAB "E" "knows" "A" "B" []).1 = Out.ok eKnows ∧
    drop_node storeABE "A" = Out.ok storeAfterDropA ∧
    get_node storeAfterDropA "A" = Out.err "Item not found!" ∧
    get_edge storeAfterDropA "E" = Out.ok eKnows ∧
    get_in_edges storeAfterDropA "B" "knows" = Out.ok [eKnows] := by
  exact ⟨rfl, rfl, rfl, rfl, rfl⟩

/-! ## C6 -/

/-- **C6** (code bug).  The claim (and the code's own comments on
`CF_NODES`/`CF_EDGES`/`CF_INDICES`) say all index keys (`nl:`, `el:`,
`o:`, `i:`) are written to the indices column family.  The writes in
`create_node` and `create_edge` instead put the `nl:` entry in the
nodes family and the `el:`/`o:`/`i:` entries in the edges family; the
indices family receives nothing.  Evaluated on the concrete scenario. -/
theorem index_keys_not_in_indices_family :
    cfGet storeABE.nodes (node_label_key "person" "A") = some StoredVal.emptyVal ∧
    cfGet storeABE.nodes (node_label_key "person" "B") = some StoredVal.emptyVal ∧
    cfGet storeABE.edges (edge_label_key "knows" "E") = some StoredVal.emptyVal ∧
    cfGet storeABE.edges (out_edge_key "A" "E") = some StoredVal.emptyVal ∧
    cfGet storeABE.edges (in_edge_key "B" "E") = some StoredVal.emptyVal ∧
    storeABE.indices = [] := by
  exact ⟨rfl, rfl, rfl, rfl, rfl, rfl⟩

/-! ## C8 -/

/-- **C8** (confirmed).  A request whose `(method, path)` pair matches
no registered route makes `handle` return `Ok` with the response status
set to 404, the headers and body unchanged; the result coincides with
that of a router having no routes at all, so no handler is invoked. -/
theorem handle_missing_route (r : HelixRouter) (req : RRequest)
    (resp : RResponse)
    (h : findRoute r.routes (req.method, req.path) = none) :
    handle r req resp = Except.ok ⟨404, resp.headers, resp.body⟩ ∧
    handle r req resp = handle ⟨[]⟩ req resp := by
  constructor
  · simp [handle, h]
  · simp [handle, h, findRoute]

/-- Witness for C8: an empty router and the fresh `Response::new()`. -/
theorem handle_missing_route_witness :
    handle ⟨[]⟩ ⟨"GET", "/nope"⟩ responseNew =
      Except.ok ⟨404, [("Content-Type", "text/plain")], []⟩ :=
  (handle_missing_route ⟨[]⟩ ⟨"GET", "/nope"⟩ responseNew rfl).1

/-! ## C9 -/

/-- **C9** (confirmed).  `drop_edge` panics (rather than returning a
typed NotFound error) when the edge record is absent, and when the
record is present it cannot fail: it returns `Ok` and removes exactly
the outgoing adjacency entry, the incoming adjacency entry and the edge
record from the edges family, in one batch, leaving the other column
families untouched. -/
theorem drop_edge_requires_edge (s : Store) (id : String) :
    (cfGet s.edges (edge_key id) = none → drop_edge s id = Out.panic) ∧
    (∀ e : REdge, cfGet s.edges (edge_key id) = some (StoredVal.edgeRec e) →
      ∃ s', drop_edge s id = Out.ok s' ∧ s'.nodes = s.nodes ∧
        s'.indices = s.indices ∧
        cfGet s'.edges (edge_key id) = none ∧
        ∀ k, EKey s'.edges k ↔
          EKey s.edges k ∧ k ≠ out_edge_key e.from_node id ∧
            k ≠ in_edge_key e.to_node id ∧ k ≠ edge_key id) := by
  constructor
  · intro h
    simp [drop_edge, h]
  · intro e he
    refine ⟨⟨s.nodes,
        cfDel (cfDel (cfDel s.edges (out_edge_key e.from_node id))
          (in_edge_key e.to_node id)) (edge_key id), s.indices⟩,
      ?_, rfl, rfl, ?_, ?_⟩
    · simp [drop_edge, he]
    · exact cfGet_del_self _ _
    · intro k
      simp only [EKey_cfDel]
      tauto

/-- Witness for C9: the panic on the empty store, and the successful
drop of the concrete edge `E`. -/
theorem drop_edge_requires_edge_witness :
    drop_edge Store.empty "E" = Out.panic ∧
    ∃ s', drop_edge storeABE "E" = Out.ok s' ∧ s'.nodes = storeABE.nodes ∧
      s'.indices = storeABE.indices ∧
      cfGet s'.edges (edge_key "E") = none ∧
      ∀ k, EKey s'.edges k ↔
        EKey storeABE.edges k ∧ k ≠ out_edge_key eKnows.from_node "E" ∧
          k ≠ in_edge_key eKnows.to_node "E" ∧ k ≠ edge_key "E" :=
  ⟨(drop_edge_requires_edge Store.empty "E").1 rfl,
   (drop_edge_requires_edge storeABE "E").2 eKnows rfl⟩

end Helix
